import Mathlib

/-!
Used-name bookkeeping and SDK entry points of libsfdk, the file wizard of the core plugin,
qpatch, and the file classification of the QML/JS model manager.

A shallow embedding of `src/libs/sfdk/vboxvirtualmachine.cpp`, `src/libs/sfdk/sdk.cpp`,
`src/libs/sfdk/sfdkconstants.h`, `src/plugins/coreplugin/basefilewizard.cpp`,
`src/tools/qpatch/qpatch.cpp` and `src/plugins/qmljstools/qmljsmodelmanager.cpp`, followed by
the properties proved about it.

Conventions of the embedding:
* `QString` is `String`; `QStringList` is `List QString`.
* C++ `int` counters are `Int`.  Signed overflow (undefined behaviour in C++, and only
  reachable with 2^31 live objects of one name) is outside the model.
* Static (process-wide) variables are passed explicitly: a function that reads or writes
  `s_usedVmNames` takes the map and returns the new map.
* Callbacks (`Functor`) are modelled by the list of invocations they receive.
* Bytes are natural numbers below 256; attribute flags are natural numbers used as bit masks.
* Loops whose end depends on the input take a bound on the number of iterations and yield
  `none` (or the state reached) when the bound is hit.
-/

namespace Sfdk

/-! ## Qt containers -/

/-- QString, the key and name type. -/
abbrev QString := String

/-- QString::isEmpty: the string has no characters. -/
def QString.isEmpty (s : QString) : Bool := s.length == 0

/-- The strict order of QMap keys (`operator<` on QString): lexicographic on the characters. -/
def QString.less (a b : QString) : Bool := decide (a.data < b.data)

/-- QMap<QString, int>: the entries, kept in ascending key order with one entry per key. -/
abbrev QMap := List (QString × Int)

namespace QMap

/-- The representation invariant of a QMap: keys strictly ascending (hence unique). -/
def WF (m : QMap) : Prop := m.Pairwise (fun a b => a.1 < b.1)

/-- QMap::find / QMap::value without a default: the value stored under `key`, if any. -/
def value : QMap → QString → Option Int
  | [], _ => none
  | (k, v) :: rest, key => if k = key then some v else value rest key

/-- QMap::contains. -/
def contains (m : QMap) (key : QString) : Bool := (m.value key).isSome

/-- QMap::insert: replaces the value of an existing key, otherwise adds the entry at its
place in the key order. -/
def insert : QMap → QString → Int → QMap
  | [], key, v => [(key, v)]
  | (k, w) :: rest, key, v =>
    if QString.less key k then (key, v) :: (k, w) :: rest
    else if QString.less k key then (k, w) :: insert rest key v
    else (key, v) :: rest

/-- QMap::remove: removes the entry of `key`. -/
def remove (m : QMap) (key : QString) : QMap := m.filter (fun e => !(e.1 == key))

/-- QMap::keys: all keys in ascending order. -/
def keys (m : QMap) : List QString := m.map Prod.fst

/-- The read of `m[key]` (operator[]): the stored value, or the default-constructed `0`
that operator[] inserts when the key is absent. -/
def subscript (m : QMap) (key : QString) : Int := (m.value key).getD 0

/-- The expression `--m[key]`: operator[] (inserting `0` for an absent key), pre-decrement
in place; returns the map and the new value. -/
def preDecrement (m : QMap) (key : QString) : QMap × Int :=
  let c := m.subscript key - 1
  (m.insert key c, c)

/-- The expression `++m[key]`: operator[] (inserting `0` for an absent key), pre-increment
in place; returns the map and the new value. -/
def preIncrement (m : QMap) (key : QString) : QMap × Int :=
  let c := m.subscript key + 1
  (m.insert key c, c)

end QMap

/-! ## vboxvirtualmachine.cpp -/

/-- The part of a VBoxVirtualMachine object the used-name bookkeeping reads: `q->name()`. -/
structure VBoxVirtualMachine where
  name : QString
deriving DecidableEq

/-- VBoxVirtualMachine::usedVirtualMachines: `s_usedVmNames.keys()`. -/
def usedVirtualMachines (s_usedVmNames : QMap) : List QString := s_usedVmNames.keys

/-- VBoxVirtualMachinePrivate::prepareForNameChange on the static map:
`if (!q->name().isEmpty()) { if (--s_usedVmNames[q->name()] == 0) s_usedVmNames.remove(q->name()); }` -/
def prepareForNameChange (q : VBoxVirtualMachine) (s_usedVmNames : QMap) : QMap :=
  if !q.name.isEmpty then
    let r := s_usedVmNames.preDecrement q.name
    if r.2 = 0 then r.1.remove q.name else r.1
  else s_usedVmNames

/-- VBoxVirtualMachinePrivate::onNameChanged on the static map; the Boolean tells whether the
"Another instance for VM ... already exists" warning was logged:
`if (!q->name().isEmpty()) { if (++s_usedVmNames[q->name()] != 1) qCWarning(...) }` -/
def onNameChanged (q : VBoxVirtualMachine) (s_usedVmNames : QMap) : QMap × Bool :=
  if !q.name.isEmpty then
    let r := s_usedVmNames.preIncrement q.name
    (r.1, decide (r.2 ≠ 1))
  else (s_usedVmNames, false)

/-- The process state the bookkeeping is about: the static map, the live VBoxVirtualMachine
objects (in creation order) and the number of warnings logged so far. -/
structure Process where
  s_usedVmNames : QMap
  machines : List VBoxVirtualMachine
  warnings : Nat

/-- Process start: `QMap<QString, int> VBoxVirtualMachinePrivate::s_usedVmNames;` is empty and
no machine exists. -/
def Process.init : Process := { s_usedVmNames := [], machines := [], warnings := 0 }

/-- The constructor VBoxVirtualMachine::VBoxVirtualMachine: a new object whose name is still
empty; it only connects nameChanged to onNameChanged and does not touch the map. -/
def Process.construct (p : Process) : Process :=
  { p with machines := p.machines ++ [{ name := "" }] }

/-- Renaming the `i`-th live machine: prepareForNameChange under the old name, the assignment
of the name, then (through the nameChanged connection made in the constructor) onNameChanged
under the new name.  An index that names no live object changes nothing. -/
def Process.rename (p : Process) (i : Nat) (name : QString) : Process :=
  match p.machines[i]? with
  | none => p
  | some q =>
    let m1 := prepareForNameChange q p.s_usedVmNames
    let q1 : VBoxVirtualMachine := { q with name := name }
    let r := onNameChanged q1 m1
    { s_usedVmNames := r.1
      machines := p.machines.set i q1
      warnings := p.warnings + (if r.2 then 1 else 0) }

/-- The destructor VBoxVirtualMachine::~VBoxVirtualMachine of the `i`-th live machine:
prepareForNameChange, after which the object is gone. -/
def Process.destroy (p : Process) (i : Nat) : Process :=
  match p.machines[i]? with
  | none => p
  | some q =>
    { p with
      s_usedVmNames := prepareForNameChange q p.s_usedVmNames
      machines := p.machines.eraseIdx i }

/-- The operations a program can apply to VBoxVirtualMachine objects. -/
inductive Op where
  | construct
  | rename (i : Nat) (name : QString)
  | destroy (i : Nat)

/-- One operation applied to the process state. -/
def Process.step (p : Process) : Op → Process
  | .construct => p.construct
  | .rename i name => p.rename i name
  | .destroy i => p.destroy i

/-- A finite sequence of operations run from process start. -/
def Process.run (ops : List Op) : Process := ops.foldl Process.step Process.init

/-- The number of live machines named `n`. -/
def Process.liveCount (p : Process) (n : QString) : Nat :=
  (p.machines.map VBoxVirtualMachine.name).count n

/-- The count the map stores for `n`, read as `0` when `n` is not a key. -/
def usedCount (s_usedVmNames : QMap) (n : QString) : Int := (s_usedVmNames.value n).getD 0


/-! ## sdk.cpp -/

/-- What VBoxVirtualMachine::fetchRegisteredVirtualMachines delivers to its continuation:
the names the hypervisor reported, in its order, and the success flag. -/
structure FetchResult where
  registeredVms : List QString
  ok : Bool
deriving DecidableEq

/-- One invocation of the `Functor<const QStringList &, bool>` passed by the caller. -/
structure FunctorCall where
  vms : List QString
  ok : Bool
deriving DecidableEq

/-- QStringList::toSet: the QSet<QString> of the list elements. -/
def toSet (l : List QString) : Finset QString := l.toFinset

/-- Utils::filtered over a QStringList: the elements satisfying the predicate, order kept. -/
def filtered (l : List QString) (pred : QString → Bool) : List QString := l.filter pred

/-- Sdk::unusedVirtualMachines, run on the result the fetch delivers: the invocations the
caller's functor receives, and the static map afterwards.
`if (!ok) { functor({}, false); return; }`, otherwise the registered names that are not in
`usedVirtualMachines().toSet()`, with `true`. -/
def Sdk.unusedVirtualMachines (s_usedVmNames : QMap) (fetched : FetchResult) :
    List FunctorCall × QMap :=
  if !fetched.ok then
    ([{ vms := [], ok := false }], s_usedVmNames)
  else
    let usedVms := toSet (usedVirtualMachines s_usedVmNames)
    let unusedVms := filtered fetched.registeredVms (fun vm => !decide (vm ∈ usedVms))
    ([{ vms := unusedVms, ok := true }], s_usedVmNames)

/-- A slot connected to SdkPrivate::saveSettingsRequested(QStringList *errorStrings): it runs
synchronously inside the emit and may change the list behind the pointer. -/
abbrev SaveSettingsSlot := List QString → List QString

/-- The outcome of Sdk::saveSettings: the returned flag, the list behind `errorStrings` after the
call (`none` for a null pointer) and how often saveSettingsRequested was emitted. -/
structure SaveSettingsOutcome where
  result : Bool
  errorStrings : Option (List QString)
  emitted : Nat
deriving DecidableEq

/-- Sdk::saveSettings with the slots connected to the live instance's saveSettingsRequested
signal, in connection order.  `QTC_ASSERT(errorStrings, return false)` handles the null
pointer; otherwise the signal is emitted once and `errorStrings->isEmpty()` is returned. -/
def Sdk.saveSettings (slots : List SaveSettingsSlot) (errorStrings : Option (List QString)) :
    SaveSettingsOutcome :=
  match errorStrings with
  | none => { result := false, errorStrings := none, emitted := 0 }
  | some errs =>
    let errs1 := slots.foldl (fun e slot => slot e) errs
    { result := errs1.isEmpty, errorStrings := some errs1, emitted := 1 }


/-- The hypervisor request VirtualBoxManager::setMemorySizeMb receives. -/
structure SetMemoryRequest where
  vmName : QString
  memorySizeMb : Int
deriving DecidableEq

/-- The outcome of VBoxVirtualMachinePrivate::doSetMemorySizeMb: the requests forwarded to
VirtualBoxManager and the results the caller's `Functor<bool>` receives. -/
structure SetMemoryOutcome where
  forwarded : List SetMemoryRequest
  completions : List Bool
deriving DecidableEq

/-- VBoxVirtualMachinePrivate::doSetMemorySizeMb:
`VirtualBoxManager::setMemorySizeMb(q_func()->name(), memorySizeMb, context, functor);`
VirtualBoxManager is defined outside the files embedded here; `vboxSetMemorySizeMb` stands
for the result it delivers to the functor it is handed. -/
def doSetMemorySizeMb (vboxSetMemorySizeMb : QString → Int → Bool) (q : VBoxVirtualMachine)
    (memorySizeMb : Int) : SetMemoryOutcome :=
  { forwarded := [{ vmName := q.name, memorySizeMb := memorySizeMb }]
    completions := [vboxSetMemorySizeMb q.name memorySizeMb] }

/-- The process-wide state of the Sdk singleton: `Sdk::s_instance` (an object is identified by
its address), the state of the instance's CommandQueue, and whether the queue has been waited
for. -/
structure SdkState (Queue : Type) where
  s_instance : Option Nat
  commandQueue : Queue
  waited : Bool

/-- Sdk::instance: `return s_instance;` -/
def Sdk.instance {Queue : Type} (s : SdkState Queue) : Option Nat := s.s_instance

/-- The constructor Sdk::Sdk of the object at address `this`: `Q_ASSERT(!s_instance)` (a failed
assertion yields `none`), `s_instance = this`, and a fresh CommandQueue. -/
def Sdk.construct {Queue : Type} (fresh : Queue) (this : Nat) (s : SdkState Queue) :
    Option (SdkState Queue) :=
  if s.s_instance.isSome then none
  else some { s_instance := some this, commandQueue := fresh, waited := false }

/-- The destructor Sdk::~Sdk, as the list of states the process is in after each of its
statements, starting with the state at entry: `d->commandQueue_->wait();` and then
`s_instance = nullptr;`.  CommandQueue::wait is defined outside the files embedded here; `wait`
stands for its effect on the queue. -/
def Sdk.destruct {Queue : Type} (wait : Queue → Queue) (s : SdkState Queue) :
    List (SdkState Queue) :=
  let s1 : SdkState Queue := { s with commandQueue := wait s.commandQueue, waited := true }
  let s2 : SdkState Queue := { s1 with s_instance := none }
  [s, s1, s2]

/-! ## sfdkconstants.h -/

namespace Constants

def BUILD_ENGINES_VERSION_KEY : QString := "BuildEngines.Version"
def BUILD_ENGINES_INSTALL_DIR_KEY : QString := "BuildEngines.InstallDir"
def BUILD_ENGINES_COUNT_KEY : QString := "BuildEngines.Count"
def BUILD_ENGINES_DATA_KEY_PREFIX : QString := "BuildEngine."
def BUILD_ENGINE_VM_NAME : QString := "VirtualMachineName"
def BUILD_ENGINE_AUTODETECTED : QString := "Autodetected"
def BUILD_ENGINE_SHARED_HOME : QString := "SharedHome"
def BUILD_ENGINE_SHARED_TARGET : QString := "SharedTarget"
def BUILD_ENGINE_SHARED_CONFIG : QString := "SharedConfig"
def BUILD_ENGINE_SHARED_SRC : QString := "SharedSrc"
def BUILD_ENGINE_SHARED_SSH : QString := "SharedSsh"
def BUILD_ENGINE_HOST : QString := "Host"
def BUILD_ENGINE_USER_NAME : QString := "UserName"
def BUILD_ENGINE_PRIVATE_KEY_FILE : QString := "PrivateKeyFile"
def BUILD_ENGINE_SSH_PORT : QString := "SshPort"
def BUILD_ENGINE_SSH_TIMEOUT : QString := "SshTimeout"
def BUILD_ENGINE_WWW_PORT : QString := "WwwPort"
def BUILD_ENGINE_WWW_PROXY_TYPE : QString := "WwwProxyType"
def BUILD_ENGINE_WWW_PROXY_SERVERS : QString := "WwwProxyServers"
def BUILD_ENGINE_WWW_PROXY_EXCLUDES : QString := "WwwProxyExcludes"
def BUILD_ENGINE_HEADLESS : QString := "Headless"
def BUILD_ENGINE_TARGETS_COUNT_KEY : QString := "BuildTargets.Count"
def BUILD_ENGINE_TARGET_DATA_KEY_PREFIX : QString := "BuildTarget."

def BUILD_TARGET_NAME : QString := "Name"
def BUILD_TARGET_GCC_DUMP_MACHINE : QString := "GccDumpMachine"
def BUILD_TARGET_GCC_DUMP_MACROS : QString := "GccDumpMacros"
def BUILD_TARGET_GCC_DUMP_INCLUDES : QString := "GccDumpIncludes"
def BUILD_TARGET_QMAKE_QUERY : QString := "QmakeQuery"
def BUILD_TARGET_RPM_VALIDATION_SUITES : QString := "RpmValidationSuites"

/-- The fixed keys of one engine block, in the order of the header. -/
def engineKeys : List QString :=
  [BUILD_ENGINE_VM_NAME, BUILD_ENGINE_AUTODETECTED, BUILD_ENGINE_SHARED_HOME,
   BUILD_ENGINE_SHARED_TARGET, BUILD_ENGINE_SHARED_CONFIG, BUILD_ENGINE_SHARED_SRC,
   BUILD_ENGINE_SHARED_SSH, BUILD_ENGINE_HOST, BUILD_ENGINE_USER_NAME,
   BUILD_ENGINE_PRIVATE_KEY_FILE, BUILD_ENGINE_SSH_PORT, BUILD_ENGINE_SSH_TIMEOUT,
   BUILD_ENGINE_WWW_PORT, BUILD_ENGINE_WWW_PROXY_TYPE, BUILD_ENGINE_WWW_PROXY_SERVERS,
   BUILD_ENGINE_WWW_PROXY_EXCLUDES, BUILD_ENGINE_HEADLESS, BUILD_ENGINE_TARGETS_COUNT_KEY]

/-- The fixed keys of one build-target block, in the order of the header. -/
def targetKeys : List QString :=
  [BUILD_TARGET_NAME, BUILD_TARGET_GCC_DUMP_MACHINE, BUILD_TARGET_GCC_DUMP_MACROS,
   BUILD_TARGET_GCC_DUMP_INCLUDES, BUILD_TARGET_QMAKE_QUERY, BUILD_TARGET_RPM_VALIDATION_SUITES]

/-- The fixed keys that share a level with indexed blocks: those next to the engine blocks
and the count key next to the target blocks. -/
def levelKeys : List QString :=
  [BUILD_ENGINES_VERSION_KEY, BUILD_ENGINES_INSTALL_DIR_KEY, BUILD_ENGINES_COUNT_KEY,
   BUILD_ENGINE_TARGETS_COUNT_KEY]

/-- QString::number of a non-negative index: its decimal digits. -/
def number (n : Nat) : QString := Nat.repr n

/-- The key of the `n`-th engine block: the data key prefix followed by the index. -/
def buildEngineDataKey (n : Nat) : QString := BUILD_ENGINES_DATA_KEY_PREFIX ++ number n

/-- The key of the `n`-th build-target block: the data key prefix followed by the index. -/
def buildTargetDataKey (n : Nat) : QString := BUILD_ENGINE_TARGET_DATA_KEY_PREFIX ++ number n

/-- Reading a decimal numeral back: the value of a digit string. -/
def decimalValue (cs : List Char) : Nat := cs.foldl (fun acc c => acc * 10 + (c.toNat - 48)) 0

end Constants


/-! ## The command queue -/

/-- Modelled from the spec: an operation submitted to the CommandQueue of asynchronous_p.h
(not under src/); setMemory is the operation of the example in section 8. -/
inductive Operation where
  | setMemory (memorySizeMb : Int)
  | other (code : Nat)
deriving DecidableEq

/-- The memory size an operation sets, if it is a setMemory. -/
def Operation.memory : Operation → Option Int
  | .setMemory mb => some mb
  | .other _ => none

/-- Modelled from the spec: an entry of the CommandQueue of asynchronous_p.h (not under
src/): the target machine, the ticket (its position in the overall submission order) and the
operation. -/
structure Command where
  target : QString
  ticket : Nat
  op : Operation
deriving DecidableEq

/-- Modelled from the spec: the CommandQueue class of asynchronous_p.h, which is not under
src/ (sdk.cpp only creates the queue and waits for it).  Following section 4.1: entries are
accepted by a non-blocking enqueue, the entries of one target run strictly in FIFO order, and
entries of distinct targets may interleave.  `submitted` records every entry ever accepted,
`pending` the entries not started, `inFlight` the running ones and `completed` the entries
whose completion callback has been delivered, each oldest first. -/
structure CommandQueue where
  submitted : List Command
  pending : List Command
  inFlight : List Command
  completed : List Command
deriving DecidableEq

/-- Modelled from the spec: what can happen to the CommandQueue of asynchronous_p.h (not
under src/).  The time an operation takes is the number of other events
between its `start` and its `finish`, which a schedule chooses freely. -/
inductive QueueEvent where
  | enqueue (target : QString) (op : Operation)
  | start (target : QString)
  | finish (target : QString)
deriving DecidableEq

/-- Modelled from the spec: FIFO selection in the CommandQueue of asynchronous_p.h (not under
src/): takes the oldest entry of `target` out of a list of entries. -/
def takeOldest (target : QString) : List Command → Option (Command × List Command)
  | [] => none
  | c :: rest =>
    if c.target = target then some (c, rest)
    else match takeOldest target rest with
      | none => none
      | some (d, rest1) => some (d, c :: rest1)

/-- Modelled from the spec: one event of the CommandQueue of asynchronous_p.h (not under
src/).  `enqueue` appends the entry and returns; `start` begins the oldest pending entry of a
target unless an entry of that target is still running; `finish` ends the running entry of
a target and delivers its completion callback. -/
def CommandQueue.step (q : CommandQueue) : QueueEvent → CommandQueue
  | .enqueue target op =>
    let c : Command := { target := target, ticket := q.submitted.length, op := op }
    { q with submitted := q.submitted ++ [c], pending := q.pending ++ [c] }
  | .start target =>
    if q.inFlight.any (fun c => c.target == target) then q
    else match takeOldest target q.pending with
      | none => q
      | some (c, rest) => { q with pending := rest, inFlight := q.inFlight ++ [c] }
  | .finish target =>
    match takeOldest target q.inFlight with
    | none => q
    | some (c, rest) => { q with inFlight := rest, completed := q.completed ++ [c] }

/-- Modelled from the spec: the CommandQueue of asynchronous_p.h (not under src/) as created
in the constructor Sdk::Sdk: nothing submitted. -/
def CommandQueue.empty : CommandQueue :=
  { submitted := [], pending := [], inFlight := [], completed := [] }

/-- A schedule run on the fresh queue. -/
def CommandQueue.run (events : List QueueEvent) : CommandQueue :=
  events.foldl CommandQueue.step CommandQueue.empty

/-- The entries of one target among `cs`, order kept. -/
def forTarget (target : QString) (cs : List Command) : List Command :=
  cs.filter (fun c => c.target == target)

/-- The memory size the last setMemory of `target` among `cs` asks for. -/
def lastSetMemory (target : QString) (cs : List Command) : Option Int :=
  ((forTarget target cs).filterMap (fun c => c.op.memory)).getLast?

/-- The invariant of the queue: per target, the submitted entries are the completed ones,
then the running ones, then the pending ones; and tickets number the submissions. -/
def CommandQueue.Inv (q : CommandQueue) : Prop :=
  (∀ t, forTarget t q.submitted
      = forTarget t q.completed ++ forTarget t q.inFlight ++ forTarget t q.pending)
  ∧ q.submitted.Pairwise (fun a b => a.ticket < b.ticket)
  ∧ (∀ c ∈ q.submitted, c.ticket < q.submitted.length)


/-- Binding a further machine to the name `n`: a new VBoxVirtualMachine object is constructed
and then given the name `n` (the step a build engine created on that VM name takes). -/
def Process.bindFurtherMachine (p : Process) (n : QString) : Process :=
  p.construct.rename p.machines.length n


/-- The counting invariant: the map stores for every non-empty name exactly the number `f`
of its holders, with no entry for a name nobody holds and none for the empty name. -/
def Counts (m : QMap) (f : QString → Nat) : Prop :=
  ∀ n, m.value n = if n = "" ∨ f n = 0 then none else some (f n : Int)

/-- The invariant of the process state: the map counts the live machines, and is a
well-formed QMap. -/
def Process.Inv (p : Process) : Prop :=
  Counts p.s_usedVmNames p.liveCount ∧ p.s_usedVmNames.WF

end Sfdk

/-! ## coreplugin/basefilewizard.cpp -/

namespace Core

open Sfdk (QString)

/-- QString::endsWith(QChar). -/
def endsWithChar (s : QString) (c : Char) : Bool := s.data.getLast? == some c

/-- QString::startsWith(QChar). -/
def startsWithChar (s : QString) (c : Char) : Bool := s.data.head? == some c

/-- QString::contains(QChar). -/
def containsChar (s : QString) (c : Char) : Bool := s.data.contains c

/-- BaseFileWizard::buildFileName; `separator` is QDir::separator() of the platform.
The statements follow the source: `rc = path`, the separator is added to a non-empty `rc`
that does not end with it, `rc += baseName`, and for a non-empty extension and a base name
without a dot, a dot (unless the extension starts with one) and the extension are added. -/
def buildFileName (separator : Char) (path baseName extension : QString) : QString :=
  let rc := path
  let rc := if !Sfdk.QString.isEmpty rc && !endsWithChar rc separator then rc.push separator else rc
  let rc := rc ++ baseName
  let dot := '.'
  if !Sfdk.QString.isEmpty extension && !containsChar baseName dot then
    let rc := if !startsWithChar extension dot then rc.push dot else rc
    rc ++ extension
  else rc

/-- Core::GeneratedFile, as far as the wizard code reads it: the path and the attribute
flags (a QFlags bit mask). -/
structure GeneratedFile where
  path : QString
  attributes : Nat
deriving DecidableEq

/-- Core::GeneratedFiles: QList<GeneratedFile>. -/
abbrev GeneratedFiles := List GeneratedFile

/-- The enumerators of GeneratedFile::Attribute that the wizard code tests, as bit masks.
The enumeration is declared in generatedfile.h; the masks are taken as given. -/
structure AttributeMasks where
  OpenEditorAttribute : Nat
  OpenProjectAttribute : Nat
  CustomGeneratorAttribute : Nat
  KeepExistingFileAttribute : Nat

/-- The static helper indexOfFile: the first index whose file has the path; `none` stands for
the `-1` of the source. -/
def indexOfFile : GeneratedFiles → QString → Option Nat
  | [], _ => none
  | g :: rest, path =>
    if g.path = path then some 0
    else match indexOfFile rest path with
      | none => none
      | some i => some (i + 1)

/-- BaseFileWizard::writeFiles over a file system state of type `σ`; `write` stands for
GeneratedFile::write and yields the success flag and the new state.  The result is the
returned flag, the final state and the log of the writes attempted, in order, each with its
outcome.
`foreach (file) if (!(file.attributes() & noWriteAttributes)) if (!file.write(..)) return false;` -/
def writeFiles {σ : Type} (A : AttributeMasks) (write : σ → GeneratedFile → Bool × σ) :
    σ → GeneratedFiles → Bool × σ × List (GeneratedFile × Bool)
  | fs, [] => (true, fs, [])
  | fs, generatedFile :: rest =>
    let noWriteAttributes := A.CustomGeneratorAttribute ||| A.KeepExistingFileAttribute
    if generatedFile.attributes &&& noWriteAttributes = 0 then
      let r := write fs generatedFile
      if !r.1 then (false, r.2, [(generatedFile, false)])
      else
        let t := writeFiles A write r.2 rest
        (t.1, t.2.1, (generatedFile, true) :: t.2.2)
    else writeFiles A write fs rest

/-- The file system after GeneratedFile::write has been applied to the given files one after
the other, starting from `fs`. -/
def fsAfter {σ : Type} (write : σ → GeneratedFile → Bool × σ) (fs : σ)
    (written : GeneratedFiles) : σ :=
  written.foldl (fun s f => (write s f).2) fs

/-- The files writeFiles is meant to write: those with neither CustomGeneratorAttribute nor
KeepExistingFileAttribute, in list order. -/
def writableFiles (A : AttributeMasks) (files : GeneratedFiles) : GeneratedFiles :=
  files.filter (fun f => decide (f.attributes &&& A.CustomGeneratorAttribute = 0
    ∧ f.attributes &&& A.KeepExistingFileAttribute = 0))


/-- What QFileInfo reports about a path. -/
structure QFileInfo where
  exists_ : Bool
  isDir : Bool
  isSymLink : Bool
  isWritable : Bool
deriving DecidableEq

/-- BaseFileWizard::OverwriteResult. -/
inductive OverwriteResult where
  | OverwriteOk
  | OverwriteCanceled
  | OverwriteError
deriving DecidableEq

/-- What running Internal::PromptOverwriteDialog yields: whether exec() returned
QDialog::Accepted, and uncheckedFiles(). -/
structure DialogResult where
  accepted : Bool
  uncheckedFiles : List QString
deriving DecidableEq

/-- The surroundings of promptOverwrite that live outside basefilewizard.cpp: the file system
as seen through QFileInfo, Utils::commonPath, QDir::toNativeSeparators, the translated message
pieces, and the overwrite dialog (given the files it lists and the files it shows disabled). -/
structure PromptEnv where
  fileInfo : QString → QFileInfo
  commonPath : List QString → QString
  toNativeSeparators : QString → QString
  readOnlyMsg : QString
  directoryMsg : QString
  symLinkMsg : QString
  cannotOverwriteMsg : QString → QString → QString
  dialogExec : List QString → List QString → DialogResult

/-- What promptOverwrite leaves behind: the returned value, the file list behind `files`, the
message behind `errorMessage` (`none` when it was not assigned) and how often the overwrite
dialog was executed. -/
structure PromptOutcome where
  result : OverwriteResult
  files : GeneratedFiles
  errorMessage : Option QString
  dialogsShown : Nat
deriving DecidableEq

/-- The first loop of promptOverwrite: the paths of the files for which `fi.exists()`. -/
def existingFiles (env : PromptEnv) (files : GeneratedFiles) : List QString :=
  (files.filter (fun file => (env.fileInfo file.path).exists_)).map GeneratedFile.path

/-- QString::mid(position): the rest of the string from `position` on. -/
def mid (s : QString) (position : Nat) : QString := String.mk (s.data.drop position)

/-- The second loop of promptOverwrite: the message part listing the existing files and the
flag `oddStuffFound`, starting from the values accumulated so far. -/
def checkExisting (env : PromptEnv) (commonExistingPath : QString) :
    List QString → QString × Bool → QString × Bool
  | [], acc => acc
  | fileName :: rest, (fileNamesMsgPart, oddStuffFound) =>
    let fi := env.fileInfo fileName
    if fi.exists_ then
      let msg := if !Sfdk.QString.isEmpty fileNamesMsgPart then fileNamesMsgPart ++ ", "
        else fileNamesMsgPart
      let msg := msg ++ env.toNativeSeparators (mid fileName (commonExistingPath.length + 1))
      if fi.isDir then checkExisting env commonExistingPath rest (msg ++ env.directoryMsg, true)
      else if fi.isSymLink then
        checkExisting env commonExistingPath rest (msg ++ env.symLinkMsg, true)
      else if !fi.isWritable then
        checkExisting env commonExistingPath rest (msg ++ env.readOnlyMsg, true)
      else checkExisting env commonExistingPath rest (msg, oddStuffFound)
    else checkExisting env commonExistingPath rest (fileNamesMsgPart, oddStuffFound)

/-- `file.setAttributes(file.attributes() | GeneratedFile::KeepExistingFileAttribute)`. -/
def keepExisting (A : AttributeMasks) (file : GeneratedFile) : GeneratedFile :=
  { file with attributes := file.attributes ||| A.KeepExistingFileAttribute }

/-- The last loop of promptOverwrite: for every file to keep, indexOfFile and the `keep`
attribute on that entry.  The flag is false when `QTC_ASSERT(i != -1, ...)` fails; the list
is then the one modified so far. -/
def setKeepAttributes (A : AttributeMasks) : GeneratedFiles → List QString → GeneratedFiles × Bool
  | files, [] => (files, true)
  | files, keepFile :: rest =>
    match indexOfFile files keepFile with
    | none => (files, false)
    | some i => setKeepAttributes A (files.modify (keepExisting A) i) rest

/-- The paths promptOverwrite shows disabled in the dialog: those of the files with
CustomGeneratorAttribute. -/
def disabledFiles (A : AttributeMasks) (files : GeneratedFiles) : List QString :=
  (files.filter (fun file => decide (file.attributes &&& A.CustomGeneratorAttribute ≠ 0))).map
    GeneratedFile.path

/-- BaseFileWizard::promptOverwrite: the existing paths are collected; without any the result
is OverwriteOk; a folder, symbolic link or read-only file among them gives OverwriteError
with the message assigned; otherwise the dialog is executed, a rejected dialog or one with as
many unchecked files as there are generated files gives OverwriteCanceled, and else the
unchecked files get the `keep` attribute. -/
def promptOverwrite (A : AttributeMasks) (env : PromptEnv) (files : GeneratedFiles) :
    PromptOutcome :=
  let existing := existingFiles env files
  if existing.isEmpty then
    { result := .OverwriteOk, files := files, errorMessage := none, dialogsShown := 0 }
  else
    let commonExistingPath := env.commonPath existing
    let checked := checkExisting env commonExistingPath existing ("", false)
    if checked.2 then
      { result := .OverwriteError, files := files
        errorMessage := some (env.cannotOverwriteMsg
          (env.toNativeSeparators commonExistingPath) checked.1)
        dialogsShown := 0 }
    else
      let disabled := disabledFiles A files
      let dialog := env.dialogExec existing disabled
      if !dialog.accepted then
        { result := .OverwriteCanceled, files := files, errorMessage := none, dialogsShown := 1 }
      else
        let existingFilesToKeep := dialog.uncheckedFiles
        if existingFilesToKeep.length = files.length then
          { result := .OverwriteCanceled, files := files, errorMessage := none
            dialogsShown := 1 }
        else
          let kept := setKeepAttributes A files existingFilesToKeep
          if kept.2 then
            { result := .OverwriteOk, files := kept.1, errorMessage := none, dialogsShown := 1 }
          else
            { result := .OverwriteCanceled, files := kept.1, errorMessage := none
              dialogsShown := 1 }


/-- Sample attribute masks for worked examples: one bit per attribute. -/
def sampleMasks : AttributeMasks :=
  { OpenEditorAttribute := 1, OpenProjectAttribute := 2, CustomGeneratorAttribute := 4,
    KeepExistingFileAttribute := 8 }

/-- A sample surrounding for worked examples: everything below "/p" exists except
"/p/new", "/p/dir" is a folder, "/p/ro" is read-only, and the user accepts the dialog
leaving the first listed file unchecked. -/
def sampleEnv : PromptEnv :=
  { fileInfo := fun p =>
      { exists_ := decide (p ≠ "/p/new"), isDir := decide (p = "/p/dir"), isSymLink := false,
        isWritable := decide (p ≠ "/p/ro") }
    commonPath := fun _ => "/p"
    toNativeSeparators := fun p => p
    readOnlyMsg := " [read only]"
    directoryMsg := " [folder]"
    symLinkMsg := " [symbolic link]"
    cannotOverwriteMsg := fun dir names => dir ++ ": " ++ names
    dialogExec := fun existing _ => { accepted := true, uncheckedFiles := existing.take 1 } }

/-- An existing path that blocks overwriting: a folder, a symbolic link or not writable. -/
def blocksOverwrite (env : PromptEnv) (path : QString) : Bool :=
  (env.fileInfo path).exists_
    && ((env.fileInfo path).isDir || (env.fileInfo path).isSymLink
        || !(env.fileInfo path).isWritable)


/-- WizardEventLoop::WizardResult. -/
inductive WizardResult where
  | Accepted
  | Rejected
  | PageChanged
deriving DecidableEq

/-- One return of WizardEventLoop::execWizardPage as runWizard sees it: the result, and the
page pointer `wizard->page(wizard->currentId())` at that moment.  Pages are identified by
numbers; `none` is the null pointer QWizard::page returns when no page is current
(`currentId()` is -1). -/
structure WizardStep where
  wr : WizardResult
  currentPage : Option Nat
deriving DecidableEq

/-- An IFileWizardExtension as runWizard uses it: its pages, its code style applied to a file,
and processFiles with its result, its `removeOpenProjectAttribute` output and the error
message it leaves. -/
structure FileWizardExtension where
  extensionPages : List Nat
  applyCodeStyle : GeneratedFile → GeneratedFile
  processFiles : GeneratedFiles → Bool × Bool × QString

/-- The observable actions of runWizard, in the order they happen.  Extensions are named by
their position in the purged extension list, generateFiles by the loop iteration. -/
inductive WizardAction where
  | generateFiles (iteration : Nat)
  | firstExtensionPageShown (extension : Nat)
  | criticalMessage (title : QString)
  | promptOverwrite
  | write (file : GeneratedFile) (ok : Bool)
  | processFiles (extension : Nat)
  | postGenerateFiles
deriving DecidableEq

/-- The surroundings of runWizard: the attribute masks, the surroundings of promptOverwrite,
the registered extensions, whether createWizardDialog yields a wizard, what the virtual
generateFiles returns in a given loop iteration (the files and the error message), the
effect of GeneratedFile::write on the file system, and the virtual postGenerateFiles. -/
structure WizardEnv (σ : Type) where
  masks : AttributeMasks
  prompt : PromptEnv
  registeredExtensions : List FileWizardExtension
  wizardCreated : Bool
  generateFiles : Nat → GeneratedFiles × QString
  write : σ → GeneratedFile → Bool × σ
  postGenerateFiles : GeneratedFiles → Bool × QString

/-- What the wizard loop of runWizard leaves: the generated files, the actions so far, and
the number of execWizardPage calls made. -/
structure LoopOutcome where
  files : GeneratedFiles
  trace : List WizardAction
  iterations : Nat
deriving DecidableEq

/-- What runWizard leaves: the file list at its end, the actions, and the file system. -/
structure WizardOutcome (σ : Type) where
  files : GeneratedFiles
  trace : List WizardAction
  fs : σ

/-- The purge at the start of runWizard: extensions without pages are erased. -/
def purgedExtensions (extensions : List FileWizardExtension) : List FileWizardExtension :=
  extensions.filter (fun ex => !ex.extensionPages.isEmpty)

/-- The list `allExtensionPages` compiled at the start of runWizard. -/
def allExtensionPages (extensions : List FileWizardExtension) : List Nat :=
  (purgedExtensions extensions).flatMap (fun ex => ex.extensionPages)

/-- The pointer `firstExtensionPage` of runWizard: `allExtensionPages.front()`, or the null
pointer it is initialised with when there are no extension pages. -/
def firstExtensionPage (pages : List Nat) : Option Nat := pages.head?

/-- The test `firstExtensionPageHit` of the wizard loop:
`wr == PageChanged && wizard->page(wizard->currentId()) == firstExtensionPage`, a comparison
of two pointers either of which may be null. -/
def firstExtensionPageHit (pages : List Nat) (step : WizardStep) : Bool :=
  decide (step.wr = .PageChanged) && decide (step.currentPage = firstExtensionPage pages)

/-- The test `needGenerateFiles` of the wizard loop:
`firstExtensionPageHit || (accepted && allExtensionPages.empty())`. -/
def needGenerateFiles (pages : List Nat) (step : WizardStep) : Bool :=
  firstExtensionPageHit pages step || (decide (step.wr = .Accepted) && pages.isEmpty)

/-- The wizard loop `while (true) { ... }` of runWizard, fed with the successive returns of
execWizardPage; `none` when the returns at hand end while the loop is still running.
`extensions` is the number of purged extensions, `pages` is `allExtensionPages`. -/
def wizardLoop (generateFiles : Nat → GeneratedFiles × QString) (extensions : Nat)
    (pages : List Nat) :
    Nat → List WizardStep → GeneratedFiles → List WizardAction → Option LoopOutcome
  | _, [], _, _ => none
  | i, step :: rest, files, trace =>
    if step.wr = .Rejected then
      some { files := [], trace := trace, iterations := i + 1 }
    else
      let accepted := decide (step.wr = .Accepted)
      let shown := if firstExtensionPageHit pages step
        then (List.range extensions).map WizardAction.firstExtensionPageShown else []
      if needGenerateFiles pages step then
        let generated := (generateFiles i).1
        if generated.isEmpty then
          some { files := generated
                 trace := trace ++ [.generateFiles i, .criticalMessage "File Generation Failure"]
                 iterations := i + 1 }
        else if accepted then
          some { files := generated, trace := trace ++ [.generateFiles i] ++ shown
                 iterations := i + 1 }
        else
          wizardLoop generateFiles extensions pages (i + 1) rest generated
            (trace ++ [.generateFiles i] ++ shown)
      else if accepted then
        some { files := files, trace := trace ++ shown, iterations := i + 1 }
      else
        wizardLoop generateFiles extensions pages (i + 1) rest files (trace ++ shown)

/-- The wizard loop is left in iteration `i` on this return: it is Rejected, or Accepted, or
files had to be generated and generateFiles produced none. -/
def leavesLoop (generateFiles : Nat → GeneratedFiles × QString) (pages : List Nat) (i : Nat)
    (step : WizardStep) : Bool :=
  decide (step.wr = .Rejected) || decide (step.wr = .Accepted)
    || (needGenerateFiles pages step && (generateFiles i).1.isEmpty)

/-- The loop over the extensions' processFiles in runWizard: stops at the first extension
that fails; yields whether all succeeded, the or of the `remove` outputs, and the actions. -/
def runProcessFiles (files : GeneratedFiles) :
    Nat → List FileWizardExtension → Bool → List WizardAction → Bool × Bool × List WizardAction
  | _, [], remove, trace => (true, remove, trace)
  | k, ex :: rest, remove, trace =>
    let r := ex.processFiles files
    if !r.1 then
      (false, remove, trace ++ [.processFiles k]
        ++ (if !Sfdk.QString.isEmpty r.2.2 then [.criticalMessage "File Generation Failure"]
            else []))
    else runProcessFiles files (k + 1) rest (remove || r.2.1) (trace ++ [.processFiles k])

/-- BaseFileWizard::runWizard, fed with the successive returns of execWizardPage; `none` when
they end while the wizard loop is still running. -/
def runWizard {σ : Type} (env : WizardEnv σ) (path : QString) (events : List WizardStep)
    (fs : σ) : Option (WizardOutcome σ) :=
  if Sfdk.QString.isEmpty path then some { files := [], trace := [], fs := fs }
  else
    let extensions := purgedExtensions env.registeredExtensions
    let pages := allExtensionPages env.registeredExtensions
    if !env.wizardCreated then some { files := [], trace := [], fs := fs }
    else
      match wizardLoop env.generateFiles extensions.length pages 0 events [] [] with
      | none => none
      | some loop =>
        if loop.files.isEmpty then some { files := loop.files, trace := loop.trace, fs := fs }
        else
          let prompted := promptOverwrite env.masks env.prompt loop.files
          let trace := loop.trace ++ [.promptOverwrite]
          match prompted.result with
          | .OverwriteCanceled => some { files := prompted.files, trace := trace, fs := fs }
          | .OverwriteError =>
            some { files := prompted.files
                   trace := trace ++ [.criticalMessage "Existing files"], fs := fs }
          | .OverwriteOk =>
            let files := extensions.foldl (fun fl ex => fl.map ex.applyCodeStyle) prompted.files
            let written := writeFiles env.masks env.write fs files
            let trace := trace ++ written.2.2.map (fun e => WizardAction.write e.1 e.2)
            if !written.1 then
              some { files := files
                     trace := trace ++ [.criticalMessage "File Generation Failure"]
                     fs := written.2.1 }
            else
              let processed := runProcessFiles files 0 extensions false trace
              if !processed.1 then
                some { files := files, trace := processed.2.2, fs := written.2.1 }
              else
                let files := if processed.2.1 then
                    files.map (fun f =>
                      if f.attributes &&& env.masks.OpenProjectAttribute ≠ 0
                      then { f with attributes := env.masks.OpenEditorAttribute } else f)
                  else files
                let post := env.postGenerateFiles files
                some { files := files
                       trace := processed.2.2 ++ [.postGenerateFiles]
                         ++ (if !post.1 && !Sfdk.QString.isEmpty post.2
                             then [.criticalMessage "File Generation Failure"] else [])
                       fs := written.2.1 }


/-- The actions that belong to the wizard loop itself: generating files, notifying the
extensions of the first extension page, and the failure message box. -/
def WizardAction.inLoop : WizardAction → Bool
  | .generateFiles _ => true
  | .firstExtensionPageShown _ => true
  | .criticalMessage _ => true
  | _ => false

/-- A sample surrounding of runWizard for worked examples: no extension is registered, so
there is no extension page; generateFiles yields one new file; every write succeeds. -/
def sampleWizardEnv : WizardEnv Nat :=
  { masks := sampleMasks
    prompt := sampleEnv
    registeredExtensions := []
    wizardCreated := true
    generateFiles := fun i => ([{ path := "/p/new", attributes := i }], "")
    write := fun n _ => (true, n + 1)
    postGenerateFiles := fun _ => (true, "") }

end Core

/-! ## tools/qpatch/qpatch.cpp -/

namespace QPatch

open Sfdk (QString)

/-- QByteArray: a sequence of bytes (each below 256). -/
abbrev QByteArray := List Nat

/-- The file system as qpatch sees it: the content a file yields when it can be opened for
reading, `none` when it cannot. -/
abbrev FileSystem := QString → Option QByteArray

/-- The surroundings of qpatch: QFile::encodeName, the conversion of a byte array to a
QString, the lines QTextStream::readLine yields for the list file (`none` when it cannot be
opened), whether a file can be opened for writing, and QByteArray::replace. -/
structure Env where
  encodeName : QString → QByteArray
  fromBytes : QByteArray → QString
  readLines : QString → Option (List QString)
  writable : QString → Bool
  replace : QByteArray → QByteArray → QByteArray → QByteArray

/-- The search of QByteArray::indexOf from position `start`, trying `fuel` positions. -/
def scanFrom (hay needle : QByteArray) : Nat → Nat → Option Nat
  | 0, _ => none
  | fuel + 1, start =>
    if needle.isPrefixOf (hay.drop start) then some start
    else scanFrom hay needle fuel (start + 1)

/-- QByteArray::indexOf(needle, from): the first position at or after `from` where `needle`
occurs; `none` stands for -1.  An empty needle is found at `from` itself. -/
def indexOf (hay needle : QByteArray) (start : Nat) : Option Nat :=
  if needle.isEmpty then some start
  else if hay.length < start + needle.length then none
  else scanFrom hay needle (hay.length + 1 - (start + needle.length)) start

/-- The inner loop `for (; endOfString < source.size(); ++endOfString) if (!source.at(..)) break;`:
the position of the first NUL at or after `start`, or the size when there is none. -/
def findNul (source : QByteArray) : Nat → Nat → Nat
  | 0, position => position
  | fuel + 1, position =>
    if position < source.length then
      if source.getD position 0 = 0 then position
      else findNul source fuel (position + 1)
    else position

/-- The bytes `source.constData()[first .. last)`; the byte at position `size` is the NUL that
terminates every QByteArray. -/
def bytesBetween (source : QByteArray) (first last : Nat) : QByteArray :=
  (List.range (last - first)).map (fun k => source.getD (first + k) 0)

/-- The binary patch loop `forever { ... }` of main with what follows it, as the bytes
written to the file; `none` when the fuel runs out or when the copy loop starts behind
`endOfString` (a pointer loop that never meets its end).  When no NUL follows an occurrence,
`endOfString` is one past the size of `source`; the final write then has a negative length
and writes nothing. -/
def patchLoop (source qtDirPath newQtPath : QByteArray) :
    Nat → Nat → QByteArray → Option QByteArray
  | 0, _, _ => none
  | fuel + 1, index, written =>
    match indexOf source qtDirPath index with
    | none =>
      some (if index ≠ source.length then written ++ source.drop index else written)
    | some start =>
      let endOfString := findNul source (source.length - start) start + 1
      let written := if index ≠ start then written ++ (source.drop index).take (start - index)
        else written
      let length := endOfString - start
      if endOfString < start + qtDirPath.length then none
      else
        let s := newQtPath ++ bytesBetween source (start + qtDirPath.length) endOfString
        let s := s ++ List.replicate (length - s.length) 0
        patchLoop source qtDirPath newQtPath fuel endOfString (written ++ s)

/-- The binary patching of one file: the loop started at index 0 with nothing written. -/
def patchBinary (source qtDirPath newQtPath : QByteArray) : Option QByteArray :=
  patchLoop source qtDirPath newQtPath (source.length + 2) 0 []

/-- The loop of main that reads the list file: empty lines are skipped, a line starting with
"%%" switches to the text files, every other line goes to the current list. -/
def readFileList : List QString → Bool → List QString × List QString
  | [], _ => ([], [])
  | line :: rest, readingTextFilesToPatch =>
    if Sfdk.QString.isEmpty line then readFileList rest readingTextFilesToPatch
    else if "%%".data.isPrefixOf line.data then readFileList rest true
    else
      let r := readFileList rest readingTextFilesToPatch
      if readingTextFilesToPatch then (r.1, line :: r.2) else (line :: r.1, r.2)

/-- The name a listed file is opened under: the new Qt directory, a '/' unless it already
ends with one, and the listed name. -/
def prefixed (env : Env) (newQtPath : QByteArray) (fileName : QString) : QString :=
  let start := env.fromBytes newQtPath
  let start := if start.data.getLast? = some '/' then start else start.push '/'
  start ++ fileName

/-- Writing `content` to the file `name`. -/
def FileSystem.write (fs : FileSystem) (name : QString) (content : QByteArray) : FileSystem :=
  fun n => if n = name then some content else fs n

/-- What a run of qpatch leaves: the exit code, the file system, and the files written with
their new contents, in order. -/
structure Outcome where
  exitCode : Int
  fs : FileSystem
  written : List (QString × QByteArray)

/-- EXIT_FAILURE. -/
def EXIT_FAILURE : Int := 1

/-- The loop over `filesToPatch` of main: a file that cannot be read or written is skipped. -/
def patchFiles (env : Env) (qtDirPath newQtPath : QByteArray) :
    List QString → FileSystem → List (QString × QByteArray) →
      Option (FileSystem × List (QString × QByteArray))
  | [], fs, written => some (fs, written)
  | fileName :: rest, fs, written =>
    let name := prefixed env newQtPath fileName
    match fs name with
    | none => patchFiles env qtDirPath newQtPath rest fs written
    | some source =>
      if !env.writable name then patchFiles env qtDirPath newQtPath rest fs written
      else match patchBinary source qtDirPath newQtPath with
        | none => none
        | some content =>
          patchFiles env qtDirPath newQtPath rest (fs.write name content)
            (written ++ [(name, content)])

/-- The loop over `textFilesToPatch` of main. -/
def patchTextFiles (env : Env) (qtDirPath newQtPath : QByteArray) :
    List QString → FileSystem → List (QString × QByteArray) →
      FileSystem × List (QString × QByteArray)
  | [], fs, written => (fs, written)
  | fileName :: rest, fs, written =>
    let name := prefixed env newQtPath fileName
    match fs name with
    | none => patchTextFiles env qtDirPath newQtPath rest fs written
    | some source =>
      if !env.writable name then patchTextFiles env qtDirPath newQtPath rest fs written
      else
        let content := env.replace source qtDirPath newQtPath
        patchTextFiles env qtDirPath newQtPath rest (fs.write name content)
          (written ++ [(name, content)])

/-- The function main of qpatch on the arguments that remain after `args.removeFirst()`;
`none` when a patch loop does not come to an end. -/
def main (env : Env) (fs : FileSystem) (args : List QString) : Option Outcome :=
  match args with
  | [files, oldQtDir, newQtDir] =>
    let qtDirPath := env.encodeName oldQtDir
    let newQtPath := env.encodeName newQtDir
    if qtDirPath.length < newQtPath.length then
      some { exitCode := EXIT_FAILURE, fs := fs, written := [] }
    else match env.readLines files with
      | none => some { exitCode := EXIT_FAILURE, fs := fs, written := [] }
      | some lines =>
        let lists := readFileList lines false
        match patchFiles env qtDirPath newQtPath lists.1 fs [] with
        | none => none
        | some binary =>
          let text := patchTextFiles env qtDirPath newQtPath lists.2 binary.1 binary.2
          some { exitCode := 0, fs := text.1, written := text.2 }
  | _ => some { exitCode := EXIT_FAILURE, fs := fs, written := [] }

/-- A sample surrounding for worked examples: names are encoded byte per character, the list
file names one binary file, and every file is writable. -/
def sampleEnv : Env :=
  { encodeName := fun s => s.data.map Char.toNat
    fromBytes := fun b => String.mk (b.map Char.ofNat)
    readLines := fun _ => some ["lib/libQt.so"]
    writable := fun _ => true
    replace := fun source _ _ => source }

/-- A sample file system: one library that embeds the old Qt directory in a NUL-terminated
string. -/
def sampleFs : FileSystem :=
  fun n => if n = "/usr/qt/lib/libQt.so"
    then some (("ab/opt/qt/x".data.map Char.toNat) ++ [0, 7, 7]) else none

/-- The positions `start` at which the scan of the binary patch loop locates the old Qt
directory, in order: each scan starts at the `endOfString` of the previous occurrence. -/
def locatedStarts (source qtDirPath : QByteArray) : Nat → Nat → List Nat
  | 0, _ => []
  | fuel + 1, index =>
    match indexOf source qtDirPath index with
    | none => []
    | some start =>
      start :: locatedStarts source qtDirPath fuel
        (findNul source (source.length - start) start + 1)

/-- A NUL byte stands at or after position `start` inside `source`. -/
def hasNulFrom (source : QByteArray) (start : Nat) : Bool := (source.drop start).contains 0

end QPatch

/-! ## qmljstools/qmljsmodelmanager.cpp -/

namespace QmlJSTools

open Sfdk (QString)

/-- Core::MimeType as the model manager reads it: type(), aliases(), subClassesOf() and
suffixes(). -/
structure MimeType where
  type : QString
  aliases : List QString
  subClassesOf : List QString
  suffixes : List QString
deriving DecidableEq

/-- QString::endsWith(suffix, Qt::CaseInsensitive); `fold` is the case folding of a
character. -/
def endsWithCI (fold : Char → Char) (s suffix : QString) : Bool :=
  (suffix.data.map fold).isSuffixOf (s.data.map fold)

/-- QString::contains(needle, Qt::CaseInsensitive). -/
def containsCI (fold : Char → Char) (s needle : QString) : Bool :=
  (s.data.map fold).tails.any (fun t => (needle.data.map fold).isPrefixOf t)

/-- The static helper suffixMatches: some suffix of the mime type ends the file name, case
ignored. -/
def suffixMatches (fold : Char → Char) (fileName : QString) (mimeType : MimeType) : Bool :=
  mimeType.suffixes.any (fun suffix => endsWithCI fold fileName suffix)

/-- The surroundings of ModelManager::parse: the case folding, the JS and QML source types
found in the mime database (`none` when there is no Core::ICore instance, hence no database),
and the files the three findNew...Imports helpers report for the document created in a given
iteration. -/
structure ParseEnv where
  fold : Char → Char
  db : Option (MimeType × MimeType)
  importedFiles : Nat → QString → List QString

/-- The classification at the head of the loop body of ModelManager::parse: `some isQmlFile`
when the file is parsed, `none` when the loop continues with the next file. -/
def classify (env : ParseEnv) (fileName : QString) : Option Bool :=
  match env.db with
  | some (jsSourceTy, qmlSourceTy) =>
    if suffixMatches env.fold fileName jsSourceTy then some false
    else if !suffixMatches env.fold fileName qmlSourceTy then none
    else some true
  | none =>
    if containsCI env.fold fileName ".js" then some false
    else if !containsCI env.fold fileName ".qml" then none
    else some true

/-- `foreach (file, importedFiles) if (!files.contains(file)) files.append(file);` -/
def appendNew (files : List QString) : List QString → List QString
  | [] => files
  | file :: rest => appendNew (if files.contains file then files else files ++ [file]) rest

/-- The state of the loop of ModelManager::parse: the index `i`, the growing list `files`,
and the names of the documents created and handed to updateDocument, in order. -/
structure ParseState where
  index : Nat
  files : List QString
  documents : List QString
deriving DecidableEq

/-- The loop `for (int i = 0; i < files.size(); ++i)` of ModelManager::parse, run for at most
`fuel` iterations. -/
def parseLoop (env : ParseEnv) : Nat → ParseState → ParseState
  | 0, s => s
  | fuel + 1, s =>
    match s.files[s.index]? with
    | none => s
    | some fileName =>
      match classify env fileName with
      | none => parseLoop env fuel { s with index := s.index + 1 }
      | some _ =>
        parseLoop env fuel
          { index := s.index + 1
            files := appendNew s.files (env.importedFiles s.index fileName)
            documents := s.documents ++ [fileName] }

/-- ModelManager::parse on the list `files`, run for at most `fuel` iterations. -/
def parse (env : ParseEnv) (fuel : Nat) (files : List QString) : ParseState :=
  parseLoop env fuel { index := 0, files := files, documents := [] }

/-- The surroundings of ModelManager::matchesMimeType: MimeType::matchesType and
MimeDatabase::findByType, both defined in the core plugin. -/
structure MimeEnv where
  matchesType : MimeType → QString → Bool
  findByType : QString → MimeType

/-- The loop `foreach (parent) if (matchesMimeType(..)) return true;`, given the recursive
call: the first parent that diverges or matches decides. -/
def firstMatch (call : QString → Option Bool) : List QString → Option Bool
  | [] => some false
  | parentMimeType :: rest =>
    match call parentMimeType with
    | none => none
    | some true => some true
    | some false => firstMatch call rest

/-- ModelManager::matchesMimeType with a bound on the recursion depth; `none` when the bound
is reached. -/
def matchesMimeType (env : MimeEnv) : Nat → MimeType → MimeType → Option Bool
  | 0, _, _ => none
  | fuel + 1, fileMimeType, knownMimeType =>
    let knownTypeNames := knownMimeType.type :: knownMimeType.aliases
    if knownTypeNames.any (fun knownTypeName => env.matchesType fileMimeType knownTypeName) then
      some true
    else
      firstMatch (fun parentMimeType =>
        matchesMimeType env fuel (env.findByType parentMimeType) knownMimeType)
        fileMimeType.subClassesOf

/-- The types reachable from a mime type through zero or more subClassesOf steps. -/
inductive Reaches (env : MimeEnv) : MimeType → MimeType → Prop where
  | refl (t : MimeType) : Reaches env t t
  | step {t u : MimeType} (parentMimeType : QString) :
      parentMimeType ∈ t.subClassesOf → Reaches env (env.findByType parentMimeType) u →
      Reaches env t u

/-- Some name of the known type (its type or one of its aliases) matches the type `t`. -/
def knownNameMatches (env : MimeEnv) (knownMimeType t : MimeType) : Prop :=
  ∃ name ∈ knownMimeType.type :: knownMimeType.aliases, env.matchesType t name = true


/-- A sample mime database for worked examples: "application/x-qml" is a subclass of
"text/plain"; an unknown name yields the null type; a type matches its name and aliases. -/
def sampleMimeEnv : MimeEnv :=
  { matchesType := fun t name => decide (t.type = name) || t.aliases.contains name
    findByType := fun name =>
      if name = "text/plain" then
        { type := "text/plain", aliases := [], subClassesOf := [], suffixes := ["txt"] }
      else if name = "application/x-qml" then
        { type := "application/x-qml", aliases := [], subClassesOf := ["text/plain"],
          suffixes := ["qml"] }
      else { type := "", aliases := [], subClassesOf := [], suffixes := [] } }

/-- A rank for the sample database: a type ranks above each of its parents. -/
def sampleRank (t : MimeType) : Nat :=
  (t.subClassesOf.map (fun p => if p = "application/x-qml" then 2 else 1)).sum

end QmlJSTools

/-! ## Properties -/

namespace Sfdk

/-! ### Strings and QMap -/

theorem QString.isEmpty_iff (s : QString) : s.isEmpty = true ↔ s = "" := by
  unfold QString.isEmpty
  constructor
  · intro h
    have h0 : s.length = 0 := by simpa using h
    exact String.ext (List.length_eq_zero.mp h0)
  · rintro rfl; rfl

theorem QString.less_iff (a b : QString) : QString.less a b = true ↔ a < b := by
  unfold QString.less
  rw [String.lt_iff_toList_lt]
  simp [String.toList]

theorem QString.less_irrefl (a : QString) : QString.less a a = false := by
  cases h : QString.less a a
  · rfl
  · exact absurd ((QString.less_iff a a).mp h) (lt_irrefl a)

theorem QString.eq_of_not_less {a b : QString} (h1 : ¬ QString.less a b = true)
    (h2 : ¬ QString.less b a = true) : a = b := by
  rw [QString.less_iff] at h1 h2
  rcases lt_trichotomy a b with h3 | h3 | h3
  · exact absurd h3 h1
  · exact h3
  · exact absurd h3 h2

namespace QMap

theorem value_insert_self (m : QMap) (key : QString) (v : Int) :
    (m.insert key v).value key = some v := by
  induction m with
  | nil => simp [insert, value]
  | cons e rest ih =>
    obtain ⟨k, w⟩ := e
    unfold insert
    split
    · simp [value]
    · split
      · rename_i h1 h2
        have hne : k ≠ key := by
          rintro rfl
          rw [QString.less_irrefl] at h2
          exact Bool.false_ne_true h2
        simp [value, hne, ih]
      · simp [value]

theorem value_insert_ne (m : QMap) (key : QString) (v : Int) (n : QString) (h : n ≠ key) :
    (m.insert key v).value n = m.value n := by
  induction m with
  | nil => simp [insert, value, Ne.symm h]
  | cons e rest ih =>
    obtain ⟨k, w⟩ := e
    unfold insert
    split
    · simp [value, Ne.symm h]
    · split
      · simp [value, ih]
      · rename_i h1 h2
        have hk : k = key := (QString.eq_of_not_less h1 h2).symm
        subst hk
        simp [value, Ne.symm h]

theorem value_remove_self (m : QMap) (key : QString) : (m.remove key).value key = none := by
  induction m with
  | nil => simp [remove, value]
  | cons e rest ih =>
    obtain ⟨k, w⟩ := e
    by_cases hk : k = key
    · simpa [remove, hk] using ih
    · simpa [remove, hk, value] using ih

theorem value_remove_ne (m : QMap) (key n : QString) (h : n ≠ key) :
    (m.remove key).value n = m.value n := by
  induction m with
  | nil => simp [remove, value]
  | cons e rest ih =>
    obtain ⟨k, w⟩ := e
    by_cases hk : k = key
    · subst hk
      simpa [remove, value, Ne.symm h] using ih
    · by_cases hn : k = n
      · subst hn
        simp [remove, hk, value]
      · simpa [remove, hk, value, hn] using ih

theorem mem_keys_iff (m : QMap) (n : QString) : n ∈ m.keys ↔ (m.value n).isSome = true := by
  induction m with
  | nil => simp [keys, value]
  | cons e rest ih =>
    obtain ⟨k, w⟩ := e
    by_cases hk : k = n
    · simp [keys, value, hk]
    · have : n ≠ k := Ne.symm hk
      simpa [keys, value, hk, this] using ih

theorem mem_insert {m : QMap} {key : QString} {v : Int} {e : QString × Int}
    (h : e ∈ m.insert key v) : e ∈ m ∨ e = (key, v) := by
  induction m with
  | nil => simpa [insert] using h
  | cons e0 rest ih =>
    obtain ⟨k, w⟩ := e0
    unfold insert at h
    split at h
    · rcases List.mem_cons.mp h with h | h
      · exact Or.inr h
      · exact Or.inl h
    · split at h
      · rcases List.mem_cons.mp h with h | h
        · exact Or.inl (h ▸ List.mem_cons_self _ _)
        · rcases ih h with h | h
          · exact Or.inl (List.mem_cons_of_mem _ h)
          · exact Or.inr h
      · rcases List.mem_cons.mp h with h | h
        · exact Or.inr h
        · exact Or.inl (List.mem_cons_of_mem _ h)

theorem WF_insert {m : QMap} (hm : m.WF) (key : QString) (v : Int) : (m.insert key v).WF := by
  induction m with
  | nil => simp [insert, WF]
  | cons e0 rest ih =>
    obtain ⟨k, w⟩ := e0
    have hm2 := List.pairwise_cons.mp hm
    unfold insert
    split
    · rename_i h1
      rw [QString.less_iff] at h1
      refine List.pairwise_cons.mpr ⟨?_, hm⟩
      intro e he
      rcases List.mem_cons.mp he with he | he
      · rw [he]; exact h1
      · exact lt_trans h1 (hm2.1 e he)
    · split
      · rename_i h1 h2
        rw [QString.less_iff] at h2
        refine List.pairwise_cons.mpr ⟨?_, ih hm2.2⟩
        intro e he
        rcases mem_insert he with he | he
        · exact hm2.1 e he
        · rw [he]; exact h2
      · rename_i h1 h2
        have hk : key = k := QString.eq_of_not_less h1 h2
        subst hk
        exact List.pairwise_cons.mpr ⟨hm2.1, hm2.2⟩

theorem WF_remove {m : QMap} (hm : m.WF) (key : QString) : (m.remove key).WF :=
  List.Pairwise.filter _ hm

end QMap

/-! ### The two bookkeeping primitives -/

theorem prepareForNameChange_value (q : VBoxVirtualMachine) (m : QMap) (n : QString) :
    (prepareForNameChange q m).value n =
      if q.name = "" ∨ n ≠ q.name then m.value n
      else if usedCount m n - 1 = 0 then none else some (usedCount m n - 1) := by
  unfold prepareForNameChange
  by_cases hq : q.name = ""
  · simp [hq, QString.isEmpty]
  · have hq2 : q.name.isEmpty = false := by
      cases h : q.name.isEmpty
      · rfl
      · exact absurd ((QString.isEmpty_iff _).mp h) hq
    by_cases hn : n = q.name
    · subst hn
      by_cases hc : (m.value q.name).getD 0 - 1 = 0
      · simp [hq2, hq, QMap.preDecrement, usedCount, QMap.subscript, hc, QMap.value_remove_self]
      · simp [hq2, hq, QMap.preDecrement, usedCount, QMap.subscript, hc, QMap.value_insert_self]
    · by_cases hc : QMap.subscript m q.name - 1 = 0
      · simp [hq2, hq, hn, QMap.preDecrement, hc, QMap.value_remove_ne, QMap.value_insert_ne]
      · simp [hq2, hq, hn, QMap.preDecrement, hc, QMap.value_insert_ne]

theorem onNameChanged_value (q : VBoxVirtualMachine) (m : QMap) (n : QString) :
    (onNameChanged q m).1.value n =
      if q.name = "" ∨ n ≠ q.name then m.value n else some (usedCount m n + 1) := by
  unfold onNameChanged
  by_cases hq : q.name = ""
  · simp [hq, QString.isEmpty]
  · have hq2 : q.name.isEmpty = false := by
      cases h : q.name.isEmpty
      · rfl
      · exact absurd ((QString.isEmpty_iff _).mp h) hq
    by_cases hn : n = q.name
    · subst hn
      simp [hq2, hq, QMap.preIncrement, QMap.value_insert_self, usedCount, QMap.subscript]
    · simp [hq2, hq, hn, QMap.preIncrement, QMap.value_insert_ne]

theorem prepareForNameChange_WF (q : VBoxVirtualMachine) {m : QMap} (hm : m.WF) :
    (prepareForNameChange q m).WF := by
  unfold prepareForNameChange
  split
  · simp only [QMap.preDecrement]
    split
    · exact QMap.WF_remove (QMap.WF_insert hm _ _) _
    · exact QMap.WF_insert hm _ _
  · exact hm

theorem onNameChanged_WF (q : VBoxVirtualMachine) {m : QMap} (hm : m.WF) :
    (onNameChanged q m).1.WF := by
  unfold onNameChanged
  split
  · exact QMap.WF_insert hm _ _
  · exact hm


/-! ### The counting invariant -/

theorem Counts.usedCount_eq {m : QMap} {f : QString → Nat} (h : Counts m f) {n : QString}
    (hn : n ≠ "") : usedCount m n = (f n : Int) := by
  unfold usedCount
  rw [h n]
  by_cases h0 : f n = 0
  · simp [h0]
  · simp [hn, h0]

theorem Counts.prepareForNameChange {m : QMap} {f : QString → Nat} (h : Counts m f)
    (q : VBoxVirtualMachine) (hq : q.name ≠ "" → 1 ≤ f q.name) :
    Counts (prepareForNameChange q m) (fun n => if n = q.name then f n - 1 else f n) := by
  intro n
  rw [prepareForNameChange_value]
  by_cases hq0 : q.name = ""
  · by_cases hn : n = ""
    · simp [hq0, hn, h ""]
    · simp [hq0, hn, h n]
  · by_cases hn : n = q.name
    · subst hn
      have h1 := hq hq0
      rw [h.usedCount_eq hq0]
      simp only [hq0, false_or, ne_eq, not_true_eq_false, if_false, if_true]
      by_cases h2 : f q.name - 1 = 0
      · have : (f q.name : Int) - 1 = 0 := by omega
        simp [h2, this]
      · have : ¬ (f q.name : Int) - 1 = 0 := by omega
        simp only [h2, this, or_false, if_false]
        congr 1
        omega
    · simp [hq0, hn, h n]

theorem Counts.onNameChanged {m : QMap} {f : QString → Nat} (h : Counts m f)
    (q : VBoxVirtualMachine) :
    Counts (onNameChanged q m).1 (fun n => if n = q.name then f n + 1 else f n) := by
  intro n
  rw [onNameChanged_value]
  by_cases hq0 : q.name = ""
  · by_cases hn : n = ""
    · simp [hq0, hn, h ""]
    · simp [hq0, hn, h n]
  · by_cases hn : n = q.name
    · subst hn
      rw [h.usedCount_eq hq0]
      simp [hq0]
    · simp [hq0, hn, h n]

theorem Counts.congr {m : QMap} {f g : QString → Nat} (h : Counts m f)
    (hfg : ∀ n, n ≠ "" → f n = g n) : Counts m g := by
  intro n
  rw [h n]
  by_cases hn : n = ""
  · simp [hn]
  · simp [hn, hfg n hn]

/-- Splitting the list of live objects around the `i`-th one. -/
theorem split_at_index {α : Type} (l : List α) (i : Nat) (a : α) (h : l[i]? = some a) :
    ∃ pre post, l = pre ++ a :: post ∧ (∀ b, l.set i b = pre ++ b :: post)
      ∧ l.eraseIdx i = pre ++ post := by
  induction l generalizing i with
  | nil => simp at h
  | cons x xs ih =>
    cases i with
    | zero =>
      simp at h
      subst h
      exact ⟨[], xs, by simp, by simp, by simp⟩
    | succ j =>
      simp at h
      obtain ⟨pre, post, h1, h2, h3⟩ := ih j h
      refine ⟨x :: pre, post, by simp [h1], ?_, ?_⟩
      · intro b; simp [h2 b]
      · simp [h3]

theorem Process.Inv_init : Process.init.Inv := by
  refine ⟨?_, ?_⟩
  · intro n; simp [Process.init, Process.liveCount, QMap.value]
  · simp [Process.init, QMap.WF]

theorem Process.Inv_construct {p : Process} (h : p.Inv) : p.construct.Inv := by
  refine ⟨?_, h.2⟩
  refine h.1.congr ?_
  intro n hn
  simp [Process.construct, Process.liveCount, List.count_cons, Ne.symm hn]

theorem Process.Counts_rename {p : Process} (h : Counts p.s_usedVmNames p.liveCount) (i : Nat)
    (name : QString) :
    Counts (p.rename i name).s_usedVmNames (p.rename i name).liveCount := by
  unfold Process.rename
  split
  · exact h
  · rename_i q hq
    obtain ⟨pre, post, h1, h2, -⟩ := split_at_index _ _ _ hq
    have hlive : q.name ≠ "" → 1 ≤ p.liveCount q.name := by
      intro _
      simp only [Process.liveCount, h1, List.map_append, List.map_cons, List.count_append,
        List.count_cons, beq_self_eq_true, if_true]
      omega
    have hc := (h.prepareForNameChange q hlive).onNameChanged { q with name := name }
    refine hc.congr ?_
    intro n _
    simp only [Process.liveCount, h2]
    simp only [h1, List.map_append, List.map_cons, List.count_append,
      List.count_cons, beq_iff_eq]
    by_cases ha : n = name <;> by_cases hb : n = q.name
    · subst ha; simp [← hb]; omega
    · subst ha; simp [hb, Ne.symm hb]; omega
    · subst hb; simp [ha, Ne.symm ha]
    · simp [ha, hb, Ne.symm ha, Ne.symm hb]

theorem Process.WF_rename {p : Process} (h : p.s_usedVmNames.WF) (i : Nat) (name : QString) :
    (p.rename i name).s_usedVmNames.WF := by
  unfold Process.rename
  split
  · exact h
  · exact onNameChanged_WF _ (prepareForNameChange_WF _ h)

theorem Process.Inv_rename {p : Process} (h : p.Inv) (i : Nat) (name : QString) :
    (p.rename i name).Inv :=
  ⟨Process.Counts_rename h.1 i name, Process.WF_rename h.2 i name⟩

theorem Process.Counts_destroy {p : Process} (h : Counts p.s_usedVmNames p.liveCount) (i : Nat) :
    Counts (p.destroy i).s_usedVmNames (p.destroy i).liveCount := by
  unfold Process.destroy
  split
  · exact h
  · rename_i q hq
    obtain ⟨pre, post, h1, -, h3⟩ := split_at_index _ _ _ hq
    have hlive : q.name ≠ "" → 1 ≤ p.liveCount q.name := by
      intro _
      simp only [Process.liveCount, h1, List.map_append, List.map_cons, List.count_append,
        List.count_cons, beq_self_eq_true, if_true]
      omega
    refine (h.prepareForNameChange q hlive).congr ?_
    intro n _
    simp only [Process.liveCount, h3]
    simp only [h1, List.map_append, List.map_cons, List.count_append,
      List.count_cons, beq_iff_eq]
    by_cases hb : n = q.name
    · subst hb; simp
    · simp [hb, Ne.symm hb]

theorem Process.WF_destroy {p : Process} (h : p.s_usedVmNames.WF) (i : Nat) :
    (p.destroy i).s_usedVmNames.WF := by
  unfold Process.destroy
  split
  · exact h
  · exact prepareForNameChange_WF _ h

theorem Process.Inv_destroy {p : Process} (h : p.Inv) (i : Nat) : (p.destroy i).Inv :=
  ⟨Process.Counts_destroy h.1 i, Process.WF_destroy h.2 i⟩

theorem Process.Inv_step {p : Process} (h : p.Inv) (op : Op) : (p.step op).Inv := by
  cases op with
  | construct => exact Process.Inv_construct h
  | rename i name => exact Process.Inv_rename h i name
  | destroy i => exact Process.Inv_destroy h i

theorem Process.Inv_foldl (ops : List Op) : ∀ p : Process, p.Inv → (ops.foldl Process.step p).Inv := by
  induction ops with
  | nil => intro p h; exact h
  | cons op rest ih => intro p h; exact ih _ (Process.Inv_step h op)

theorem Process.Inv_run (ops : List Op) : (Process.run ops).Inv :=
  Process.Inv_foldl ops _ Process.Inv_init


theorem takeOldest_spec (t : QString) :
    ∀ (l : List Command) (c : Command) (rest : List Command),
      takeOldest t l = some (c, rest) →
        forTarget t l = c :: forTarget t rest ∧ ∀ u, u ≠ t → forTarget u l = forTarget u rest := by
  intro l
  induction l with
  | nil => intro c rest h; simp [takeOldest] at h
  | cons x xs ih =>
    intro c rest h
    unfold takeOldest at h
    by_cases hx : x.target = t
    · simp only [hx, if_true, Option.some.injEq, Prod.mk.injEq] at h
      obtain ⟨rfl, rfl⟩ := h
      refine ⟨by simp [forTarget, hx], ?_⟩
      intro u hu
      have : ¬ x.target = u := fun h => hu (h.symm.trans hx)
      simp [forTarget, this]
    · simp only [hx, if_false] at h
      cases hrec : takeOldest t xs with
      | none => simp [hrec] at h
      | some p =>
        obtain ⟨d, rest1⟩ := p
        simp only [hrec, Option.some.injEq, Prod.mk.injEq] at h
        obtain ⟨rfl, rfl⟩ := h
        obtain ⟨h1, h2⟩ := ih d rest1 hrec
        refine ⟨?_, ?_⟩
        · simp only [forTarget] at h1 ⊢
          simp [hx, h1]
        · intro u hu
          have h3 := h2 u hu
          simp only [forTarget] at h3 ⊢
          by_cases hxu : x.target = u
          · simp [hxu, h3]
          · simp [hxu, h3]

theorem forTarget_append (t : QString) (a b : List Command) :
    forTarget t (a ++ b) = forTarget t a ++ forTarget t b := by
  simp [forTarget]

theorem CommandQueue.queueInv_empty : CommandQueue.empty.Inv := by
  refine ⟨?_, ?_, ?_⟩ <;> simp [CommandQueue.empty, forTarget]

theorem CommandQueue.queueInv_step {q : CommandQueue} (h : q.Inv) (e : QueueEvent) :
    (q.step e).Inv := by
  obtain ⟨h1, h2, h3⟩ := h
  cases e with
  | enqueue target op =>
    refine ⟨?_, ?_, ?_⟩
    · intro t
      simp only [CommandQueue.step, forTarget_append, h1 t, List.append_assoc]
    · simp only [CommandQueue.step]
      rw [List.pairwise_append]
      refine ⟨h2, by simp, ?_⟩
      intro a ha b hb
      simp only [List.mem_singleton] at hb
      subst hb
      exact h3 a ha
    · intro c hc
      simp only [CommandQueue.step, List.mem_append, List.mem_singleton, List.length_append,
        List.length_singleton] at hc ⊢
      rcases hc with hc | hc
      · exact Nat.lt_succ_of_lt (h3 c hc)
      · subst hc; exact Nat.lt_succ_self _
  | start target =>
    simp only [CommandQueue.step]
    split
    · exact ⟨h1, h2, h3⟩
    · split
      · exact ⟨h1, h2, h3⟩
      · rename_i c rest hc
        obtain ⟨e1, e2⟩ := takeOldest_spec _ _ _ _ hc
        refine ⟨?_, h2, h3⟩
        have hct : c ∈ forTarget target q.pending := by rw [e1]; exact List.mem_cons_self _ _
        have hct2 : c.target = target := by simpa [forTarget] using (List.mem_filter.mp hct).2
        intro t
        by_cases ht : t = target
        · subst ht
          rw [h1 t, e1, forTarget_append]
          simp [forTarget, hct2]
        · rw [h1 t, e2 t ht, forTarget_append]
          have : ¬ c.target = t := by
            rw [hct2]; exact fun h => ht h.symm
          simp [forTarget, this]
  | finish target =>
    simp only [CommandQueue.step]
    split
    · exact ⟨h1, h2, h3⟩
    · rename_i c rest hc
      obtain ⟨e1, e2⟩ := takeOldest_spec _ _ _ _ hc
      refine ⟨?_, h2, h3⟩
      have hct : c ∈ forTarget target q.inFlight := by rw [e1]; exact List.mem_cons_self _ _
      have hct2 : c.target = target := by simpa [forTarget] using (List.mem_filter.mp hct).2
      intro t
      by_cases ht : t = target
      · subst ht
        rw [h1 t, e1, forTarget_append]
        simp [forTarget, hct2]
      · rw [h1 t, e2 t ht, forTarget_append]
        have : ¬ c.target = t := by
          rw [hct2]; exact fun h => ht h.symm
        simp [forTarget, this]

theorem CommandQueue.queueInv_foldl (events : List QueueEvent) :
    ∀ q : CommandQueue, q.Inv → (events.foldl CommandQueue.step q).Inv := by
  induction events with
  | nil => intro q h; exact h
  | cons e rest ih => intro q h; exact ih _ (CommandQueue.queueInv_step h e)

theorem CommandQueue.queueInv_run (events : List QueueEvent) : (CommandQueue.run events).Inv :=
  CommandQueue.queueInv_foldl events _ CommandQueue.queueInv_empty

/-- In a list ordered by ticket, an entry with the smaller ticket stands before one with the
larger ticket. -/
theorem sublist_pair_of_pairwise (l : List Command)
    (hl : l.Pairwise (fun a b => a.ticket < b.ticket)) (a b : Command)
    (ha : a ∈ l) (hb : b ∈ l) (hab : a.ticket < b.ticket) : List.Sublist [a, b] l := by
  induction l with
  | nil => simp at ha
  | cons x xs ih =>
    obtain ⟨hx, hxs⟩ := List.pairwise_cons.mp hl
    rcases List.mem_cons.mp ha with ha1 | ha1
    · subst ha1
      rcases List.mem_cons.mp hb with hb1 | hb1
      · subst hb1; omega
      · exact List.Sublist.cons₂ _ (List.singleton_sublist.mpr hb1)
    · rcases List.mem_cons.mp hb with hb1 | hb1
      · subst hb1
        have := hx a ha1
        omega
      · exact List.Sublist.cons _ (ih hxs ha1 hb1)

namespace Constants

theorem digitChar_value (k : Nat) (hk : k < 10) : (Nat.digitChar k).toNat - 48 = k := by
  interval_cases k <;> decide

theorem decimalValue_toDigitsCore (fuel : Nat) :
    ∀ (n : Nat) (ds : List Char), n < fuel →
      (Nat.toDigitsCore 10 fuel n ds).foldl (fun acc c => acc * 10 + (c.toNat - 48)) 0
        = ds.foldl (fun acc c => acc * 10 + (c.toNat - 48)) n := by
  induction fuel with
  | zero => intro n ds h; omega
  | succ fuel ih =>
    intro n ds h
    have hd := digitChar_value (n % 10) (Nat.mod_lt _ (by decide))
    unfold Nat.toDigitsCore
    by_cases h0 : n / 10 = 0
    · simp only [h0, if_true, List.foldl_cons, hd]
      congr 1
      omega
    · simp only [h0, if_false]
      rw [ih (n / 10) _ (by omega)]
      simp only [List.foldl_cons, hd]
      congr 1
      omega

theorem decimalValue_number (n : Nat) : decimalValue (number n).data = n := by
  unfold decimalValue number Nat.repr Nat.toDigits
  simpa [List.asString] using decimalValue_toDigitsCore (n + 1) n [] (by omega)

theorem number_injective : Function.Injective number := by
  intro a b h
  rw [← decimalValue_number a, ← decimalValue_number b, h]

theorem append_number_injective (p : QString) : Function.Injective (fun n => p ++ number n) := by
  intro a b h
  have h1 : (p ++ number a).data = (p ++ number b).data := congrArg String.data h
  simp only [String.data_append] at h1
  exact number_injective (String.ext (List.append_cancel_left h1))

theorem take_of_append_eq (p s k : QString) (h : p ++ s = k) :
    k.data.take p.data.length = p.data := by
  subst h
  simp [String.data_append]

end Constants

/-! ### The used-name map across operations -/

theorem Process.rename_eq {p : Process} {i : Nat} {q : VBoxVirtualMachine}
    (h : p.machines[i]? = some q) (name : QString) :
    (p.rename i name).s_usedVmNames
      = (onNameChanged { name := name } (prepareForNameChange q p.s_usedVmNames)).1 := by
  simp [Process.rename, h]

theorem Counts.pos {m : QMap} {f : QString → Nat} (h : Counts m f) {n : QString} {c : Int}
    (hc : m.value n = some c) : 0 < c := by
  rw [h n] at hc
  by_cases h0 : n = "" ∨ f n = 0
  · simp [h0] at hc
  · simp only [h0, if_false, Option.some.injEq] at hc
    have : f n ≠ 0 := fun h1 => h0 (Or.inr h1)
    omega

theorem Process.liveCount_pos_iff (p : Process) (n : QString) :
    p.liveCount n ≠ 0 ↔ ∃ q ∈ p.machines, q.name = n := by
  unfold Process.liveCount
  rw [← Nat.pos_iff_ne_zero, List.count_pos_iff]
  simp

/-- C1: starting from an empty map and no machines, after every finite sequence of
constructions, renames and destructions the map stores for each non-empty name exactly the
number of live machines of that name: a name held by nobody, and the empty name, have no
entry; no stored count is zero or negative; a name is reported by usedVirtualMachines
exactly when it is non-empty and some live machine holds it; and the map stays a well-formed
QMap. -/
theorem usedVmNames_counts_live_machines (ops : List Op) (n : QString) :
    (Process.run ops).s_usedVmNames.value n
        = (if n = "" ∨ (Process.run ops).liveCount n = 0 then none
           else some ((Process.run ops).liveCount n : Int))
    ∧ (∀ c, (Process.run ops).s_usedVmNames.value n = some c → 0 < c)
    ∧ (n ∈ usedVirtualMachines (Process.run ops).s_usedVmNames
        ↔ n ≠ "" ∧ ∃ q ∈ (Process.run ops).machines, q.name = n)
    ∧ (Process.run ops).s_usedVmNames.WF := by
  have hinv := Process.Inv_run ops
  refine ⟨hinv.1 n, fun c hc => hinv.1.pos hc, ?_, hinv.2⟩
  unfold usedVirtualMachines
  rw [QMap.mem_keys_iff, hinv.1 n, ← Process.liveCount_pos_iff]
  by_cases h0 : n = ""
  · simp [h0]
  · by_cases h1 : (Process.run ops).liveCount n = 0
    · simp [h0, h1]
    · simp [h0, h1]

/-- Witness for C1: three machines, two of them named "b", one of which is then destroyed. -/
theorem usedVmNames_counts_live_machines_witness :
    (Process.run [.construct, .rename 0 "b", .construct, .rename 1 "a", .construct,
        .rename 2 "b", .destroy 0]).s_usedVmNames.value "b"
      = (if "b" = "" ∨ (Process.run [.construct, .rename 0 "b", .construct, .rename 1 "a",
            .construct, .rename 2 "b", .destroy 0]).liveCount "b" = 0 then none
         else some ((Process.run [.construct, .rename 0 "b", .construct, .rename 1 "a",
            .construct, .rename 2 "b", .destroy 0]).liveCount "b" : Int)) :=
  (usedVmNames_counts_live_machines [.construct, .rename 0 "b", .construct, .rename 1 "a",
    .construct, .rename 2 "b", .destroy 0] "b").1

/-- C2: on a successful fetch, with a map whose stored counts are all positive, the callback
receives exactly the registered names without a positive used-count, in the reported order
and with repetitions kept, together with ok = true; the map is returned unchanged. -/
theorem unusedVirtualMachines_filters_used (m : QMap) (registeredVms : List QString)
    (hpos : ∀ n c, m.value n = some c → 0 < c) :
    Sdk.unusedVirtualMachines m { registeredVms := registeredVms, ok := true }
      = ([{ vms := registeredVms.filter (fun vm => !decide (0 < usedCount m vm)), ok := true }],
         m) := by
  have hiff : ∀ vm, vm ∈ toSet (usedVirtualMachines m) ↔ 0 < usedCount m vm := by
    intro vm
    unfold toSet usedVirtualMachines usedCount
    rw [List.mem_toFinset, QMap.mem_keys_iff]
    cases hv : m.value vm with
    | none => simp
    | some c => simpa using hpos vm c hv
  simp only [Sdk.unusedVirtualMachines, filtered, Bool.not_true, Bool.false_eq_true, if_false]
  congr 3
  apply List.filter_congr
  intro vm _
  simp [hiff vm]

/-- Witness for C2: "a" is used once; the hypervisor reports b, a, c, b. -/
theorem unusedVirtualMachines_filters_used_witness :
    Sdk.unusedVirtualMachines [("a", 1)] { registeredVms := ["b", "a", "c", "b"], ok := true }
      = ([{ vms := ["b", "a", "c", "b"].filter
              (fun vm => !decide (0 < usedCount [("a", 1)] vm)),
            ok := true }], [("a", 1)]) :=
  unusedVirtualMachines_filters_used [("a", 1)] ["b", "a", "c", "b"] (by
    intro n c h
    simp only [QMap.value] at h
    split at h
    · simp only [Option.some.injEq] at h; omega
    · simp at h)

/-- C3: in a state that satisfies the counting invariant, renaming a live machine from a
non-empty name to a different non-empty name lowers the count of the old name by exactly one
(the entry disappears when that makes it zero), raises the count of the new name by exactly
one (an absent entry is created with count 1) and leaves the entry of every other name
unchanged; the counting invariant holds again afterwards. -/
theorem rename_moves_one_count (p : Process) (i : Nat) (q : VBoxVirtualMachine) (new : QString)
    (hinv : Counts p.s_usedVmNames p.liveCount) (hq : p.machines[i]? = some q)
    (hold : q.name ≠ "") (hnew : new ≠ "") (hne : new ≠ q.name) :
    usedCount (p.rename i new).s_usedVmNames q.name = usedCount p.s_usedVmNames q.name - 1
    ∧ (p.rename i new).s_usedVmNames.value q.name
        = (if usedCount p.s_usedVmNames q.name = 1 then none
           else some (usedCount p.s_usedVmNames q.name - 1))
    ∧ (p.rename i new).s_usedVmNames.value new = some (usedCount p.s_usedVmNames new + 1)
    ∧ (p.s_usedVmNames.value new = none → (p.rename i new).s_usedVmNames.value new = some 1)
    ∧ (∀ k, k ≠ q.name → k ≠ new →
        (p.rename i new).s_usedVmNames.value k = p.s_usedVmNames.value k)
    ∧ Counts (p.rename i new).s_usedVmNames (p.rename i new).liveCount := by
  have hval : ∀ k, (p.rename i new).s_usedVmNames.value k
      = if k = new then some (usedCount (prepareForNameChange q p.s_usedVmNames) k + 1)
        else (prepareForNameChange q p.s_usedVmNames).value k := by
    intro k
    rw [Process.rename_eq hq, onNameChanged_value]
    by_cases hk : k = new
    · simp [hk, hnew]
    · simp [hk]
  have hprep : ∀ k, (prepareForNameChange q p.s_usedVmNames).value k
      = if k = q.name then
          (if usedCount p.s_usedVmNames k - 1 = 0 then none
           else some (usedCount p.s_usedVmNames k - 1))
        else p.s_usedVmNames.value k := by
    intro k
    rw [prepareForNameChange_value]
    by_cases hk : k = q.name
    · simp [hk, hold]
    · simp [hk]
  have hvold : (p.rename i new).s_usedVmNames.value q.name
      = (if usedCount p.s_usedVmNames q.name = 1 then none
         else some (usedCount p.s_usedVmNames q.name - 1)) := by
    rw [hval, hprep]
    simp only [Ne.symm hne, if_false, if_true]
    by_cases h1 : usedCount p.s_usedVmNames q.name = 1
    · simp [h1]
    · have : ¬ usedCount p.s_usedVmNames q.name - 1 = 0 := by omega
      simp [h1, this]
  have hvnew : (p.rename i new).s_usedVmNames.value new
      = some (usedCount p.s_usedVmNames new + 1) := by
    rw [hval]
    simp only [if_true, usedCount]
    rw [hprep]
    simp [hne]
  refine ⟨?_, hvold, hvnew, ?_, ?_, ?_⟩
  · unfold usedCount at hvold ⊢
    rw [hvold]
    by_cases h1 : (p.s_usedVmNames.value q.name).getD 0 = 1
    · simp [h1]
    · simp [h1]
  · intro habs
    rw [hvnew]
    simp [usedCount, habs]
  · intro k hk1 hk2
    rw [hval, hprep]
    simp [hk1, hk2]
  · exact Process.Counts_rename hinv i new

/-- Witness for C3: machines named b, a, b; the first is renamed to c. -/
theorem rename_moves_one_count_witness :
    usedCount ((Process.run [.construct, .rename 0 "b", .construct, .rename 1 "a", .construct,
        .rename 2 "b"]).rename 0 "c").s_usedVmNames "b"
      = usedCount (Process.run [.construct, .rename 0 "b", .construct, .rename 1 "a",
          .construct, .rename 2 "b"]).s_usedVmNames "b" - 1 :=
  (rename_moves_one_count
    (Process.run [.construct, .rename 0 "b", .construct, .rename 1 "a", .construct,
      .rename 2 "b"]) 0 { name := "b" } "c"
    (Process.Inv_run _).1 (by decide) (by decide) (by decide) (by decide)).1


theorem Process.bindFurtherMachine_eq (p : Process) (n : QString) :
    p.bindFurtherMachine n
      = { s_usedVmNames := (onNameChanged { name := n } p.s_usedVmNames).1
          machines := p.machines ++ [{ name := n }]
          warnings := p.warnings + (if (onNameChanged { name := n } p.s_usedVmNames).2 then 1 else 0) } := by
  have hget : (p.machines ++ [({ name := "" } : VBoxVirtualMachine)])[p.machines.length]?
      = some { name := "" } := by simp
  have hprep : prepareForNameChange { name := "" } p.s_usedVmNames = p.s_usedVmNames := by
    simp [prepareForNameChange, QString.isEmpty]
  simp [Process.bindFurtherMachine, Process.rename, Process.construct, hget, hprep]

/-- C4, as stated, fails: with one machine already named "a" (count 1), binding a further
machine to "a" is not rejected; the count of "a" grows to 2 and a second live machine named
"a" exists. -/
theorem bind_used_name_not_rejected :
    0 < usedCount (Process.run [.construct, .rename 0 "a"]).s_usedVmNames "a"
    ∧ usedCount ((Process.run [.construct, .rename 0 "a"]).bindFurtherMachine "a").s_usedVmNames "a"
        = 2
    ∧ ((Process.run [.construct, .rename 0 "a"]).bindFurtherMachine "a").machines
        = [{ name := "a" }, { name := "a" }]
    ∧ ¬ (∀ (p : Process) (n : QString), 0 < usedCount p.s_usedVmNames n →
          usedCount (p.bindFurtherMachine n).s_usedVmNames n ≤ usedCount p.s_usedVmNames n) := by
  refine ⟨by decide, by decide, by decide, ?_⟩
  intro h
  exact absurd (h (Process.run [.construct, .rename 0 "a"]) "a" (by decide)) (by decide)

/-- C4, amended: binding a further machine to a name that already has a positive count is
not rejected by the used-name bookkeeping: the new machine becomes live under that name,
onNameChanged raises the count of the name by exactly one and logs one "another instance
already exists" warning, and the entry of every other name is unchanged. -/
theorem bind_used_name_increments (p : Process) (n : QString) (hn : n ≠ "")
    (hused : 0 < usedCount p.s_usedVmNames n) :
    usedCount (p.bindFurtherMachine n).s_usedVmNames n = usedCount p.s_usedVmNames n + 1
    ∧ (p.bindFurtherMachine n).machines = p.machines ++ [{ name := n }]
    ∧ (p.bindFurtherMachine n).warnings = p.warnings + 1
    ∧ (∀ k, k ≠ n → (p.bindFurtherMachine n).s_usedVmNames.value k = p.s_usedVmNames.value k) := by
  have hne : n.isEmpty = false := by
    cases h : n.isEmpty
    · rfl
    · exact absurd ((QString.isEmpty_iff _).mp h) hn
  have hwarn : (onNameChanged { name := n } p.s_usedVmNames).2 = true := by
    have : ¬ QMap.subscript p.s_usedVmNames n + 1 = 1 := by
      have h0 : 0 < QMap.subscript p.s_usedVmNames n := hused
      omega
    simp [onNameChanged, hne, QMap.preIncrement, this]
  rw [Process.bindFurtherMachine_eq]
  refine ⟨?_, rfl, by simp [hwarn], ?_⟩
  · show usedCount (onNameChanged { name := n } p.s_usedVmNames).1 n = _
    unfold usedCount
    rw [onNameChanged_value]
    simp [hn, usedCount]
  · intro k hk
    show (onNameChanged { name := n } p.s_usedVmNames).1.value k = _
    rw [onNameChanged_value]
    simp [hk]

/-- Witness for the amended C4: one machine is named "a", a second one is bound to "a". -/
theorem bind_used_name_increments_witness :
    usedCount ((Process.run [.construct, .rename 0 "a"]).bindFurtherMachine "a").s_usedVmNames "a"
      = usedCount (Process.run [.construct, .rename 0 "a"]).s_usedVmNames "a" + 1 :=
  (bind_used_name_increments (Process.run [.construct, .rename 0 "a"]) "a" (by decide)
    (by decide)).1

/-- C5: whatever the fetch carried and whatever the map holds, the callback is invoked
exactly once: with an empty list and ok = false when the fetch failed, and with ok = true
when it succeeded; the function is total, so nothing but the callback reports to the
caller. -/
theorem unusedVirtualMachines_invokes_callback_once (m : QMap) (registeredVms : List QString) :
    (Sdk.unusedVirtualMachines m { registeredVms := registeredVms, ok := false }).1
        = [{ vms := [], ok := false }]
    ∧ (∃ vms, (Sdk.unusedVirtualMachines m { registeredVms := registeredVms, ok := true }).1
        = [{ vms := vms, ok := true }])
    ∧ (Sdk.unusedVirtualMachines m { registeredVms := registeredVms, ok := false }).2 = m := by
  refine ⟨by simp [Sdk.unusedVirtualMachines], ⟨_, by simp [Sdk.unusedVirtualMachines]; rfl⟩,
    by simp [Sdk.unusedVirtualMachines]⟩

theorem foldl_append_slots (appended : List (List QString)) :
    ∀ errs : List QString,
      (appended.map (fun a => fun (e : List QString) => e ++ a)).foldl (fun e slot => slot e) errs
        = errs ++ appended.flatten := by
  induction appended with
  | nil => intro errs; simp
  | cons a rest ih => intro errs; simp [ih]

/-- C6: for a non-null error list Sdk::saveSettings emits saveSettingsRequested once and
returns true exactly when the list is empty after the slots have run; when every slot
appends its errors, the caller gets back the initial list followed by all appended errors,
and the result is true exactly when nothing was passed in and nothing was appended; for a
null pointer it returns false and emits nothing. -/
theorem saveSettings_true_iff_no_errors (slots : List SaveSettingsSlot)
    (appended : List (List QString)) (errs : List QString) :
    ((Sdk.saveSettings slots (some errs)).emitted = 1
      ∧ (Sdk.saveSettings slots (some errs)).errorStrings
          = some (slots.foldl (fun e slot => slot e) errs)
      ∧ ((Sdk.saveSettings slots (some errs)).result = true
          ↔ (Sdk.saveSettings slots (some errs)).errorStrings = some []))
    ∧ ((Sdk.saveSettings (appended.map (fun a => fun e => e ++ a)) (some errs)).errorStrings
          = some (errs ++ appended.flatten)
      ∧ ((Sdk.saveSettings (appended.map (fun a => fun e => e ++ a)) (some errs)).result = true
          ↔ errs = [] ∧ ∀ a ∈ appended, a = []))
    ∧ Sdk.saveSettings slots none = { result := false, errorStrings := none, emitted := 0 } := by
  refine ⟨⟨rfl, rfl, ?_⟩, ⟨?_, ?_⟩, rfl⟩
  · simp [Sdk.saveSettings, List.isEmpty_iff]
  · simp [Sdk.saveSettings, foldl_append_slots]
  · simp [Sdk.saveSettings, foldl_append_slots, List.isEmpty_iff]

/-- Witness for C6: two slots, the second of which reports one error. -/
theorem saveSettings_true_iff_no_errors_witness :
    (Sdk.saveSettings ([[], ["cannot write"]].map (fun a => fun e => e ++ a)) (some [])).errorStrings
      = some ([] ++ [[], ["cannot write"]].flatten) :=
  (saveSettings_true_iff_no_errors [] [[], ["cannot write"]] []).2.1.1


/-- C7: on the queue modelled from section 4.1, for every schedule (every interleaving of
enqueue, start and finish events, so whatever time each operation takes): the completions of
one target form a prefix of the submissions of that target; if A was submitted before B for
the same target and B has completed, then A has completed and its completion was delivered
before that of B; and once nothing of a target is pending or running, the last completed
setMemory of the target is the last submitted one. -/
theorem commandQueue_completes_in_submission_order (events : List QueueEvent) (A B : Command)
    (hA : A ∈ (CommandQueue.run events).submitted) (hB : B ∈ (CommandQueue.run events).completed)
    (htarget : A.target = B.target) (horder : A.ticket < B.ticket) :
    List.Sublist [A, B] (CommandQueue.run events).completed
    ∧ List.IsPrefix (forTarget B.target (CommandQueue.run events).completed)
        (forTarget B.target (CommandQueue.run events).submitted)
    ∧ (forTarget B.target (CommandQueue.run events).pending = [] →
        forTarget B.target (CommandQueue.run events).inFlight = [] →
        lastSetMemory B.target (CommandQueue.run events).completed
          = lastSetMemory B.target (CommandQueue.run events).submitted) := by
  obtain ⟨h1, h2, -⟩ := CommandQueue.queueInv_run events
  have hsub := h1 B.target
  have hpre : List.IsPrefix (forTarget B.target (CommandQueue.run events).completed)
      (forTarget B.target (CommandQueue.run events).submitted) := by
    rw [hsub, List.append_assoc]
    exact List.prefix_append _ _
  have hsorted : (forTarget B.target (CommandQueue.run events).submitted).Pairwise
      (fun a b => a.ticket < b.ticket) := List.Pairwise.filter _ h2
  have hBc : B ∈ forTarget B.target (CommandQueue.run events).completed := by
    simp [forTarget, hB]
  have hAs : A ∈ forTarget B.target (CommandQueue.run events).submitted := by
    simp [forTarget, hA, htarget]
  have hAc : A ∈ forTarget B.target (CommandQueue.run events).completed := by
    rw [hsub, List.append_assoc] at hAs hsorted
    rcases List.mem_append.mp hAs with h | h
    · exact h
    · have := (List.pairwise_append.mp hsorted).2.2 B hBc A h
      omega
  refine ⟨?_, hpre, ?_⟩
  · have hc : (forTarget B.target (CommandQueue.run events).completed).Pairwise
        (fun a b => a.ticket < b.ticket) := by
      rw [hsub, List.append_assoc] at hsorted
      exact (List.pairwise_append.mp hsorted).1
    exact (sublist_pair_of_pairwise _ hc A B hAc hBc horder).trans (List.filter_sublist _)
  · intro hp hf
    unfold lastSetMemory
    rw [hsub, hp, hf]
    simp

/-- Witness for C7: setMemory(512) then setMemory(1024) for "vm", interleaved with an
operation on another machine that is started earlier and finishes later. -/
theorem commandQueue_completes_in_submission_order_witness :
    List.Sublist
      [{ target := "vm", ticket := 0, op := .setMemory 512 },
       { target := "vm", ticket := 2, op := .setMemory 1024 }]
      (CommandQueue.run [.enqueue "vm" (.setMemory 512), .enqueue "other" (.other 0),
        .start "other", .enqueue "vm" (.setMemory 1024), .start "vm", .start "vm", .finish "vm",
        .start "vm", .finish "other", .finish "vm"]).completed
    ∧ lastSetMemory "vm" (CommandQueue.run [.enqueue "vm" (.setMemory 512),
        .enqueue "other" (.other 0), .start "other", .enqueue "vm" (.setMemory 1024),
        .start "vm", .start "vm", .finish "vm", .start "vm", .finish "other",
        .finish "vm"]).completed = some 1024 :=
  ⟨(commandQueue_completes_in_submission_order
      [.enqueue "vm" (.setMemory 512), .enqueue "other" (.other 0), .start "other",
        .enqueue "vm" (.setMemory 1024), .start "vm", .start "vm", .finish "vm", .start "vm",
        .finish "other", .finish "vm"]
      { target := "vm", ticket := 0, op := .setMemory 512 }
      { target := "vm", ticket := 2, op := .setMemory 1024 }
      (by decide) (by decide) (by decide) (by decide)).1, by decide⟩

/-- C8: the per-engine keys are pairwise distinct, the per-target keys are pairwise distinct,
and for every index the block keys "BuildEngine." + n and "BuildTarget." + n differ from
the fixed keys BuildEngines.Version, BuildEngines.InstallDir, BuildEngines.Count and
BuildTargets.Count (the target block key also from every per-engine key), from each other,
and from the block key of every other index. -/
theorem persisted_keys_distinct :
    Constants.engineKeys.Nodup ∧ Constants.targetKeys.Nodup
    ∧ (∀ n, Constants.buildEngineDataKey n ∉ Constants.levelKeys)
    ∧ (∀ n, Constants.buildTargetDataKey n ∉ Constants.levelKeys)
    ∧ (∀ n, Constants.buildTargetDataKey n ∉ Constants.engineKeys)
    ∧ Function.Injective Constants.buildEngineDataKey
    ∧ Function.Injective Constants.buildTargetDataKey
    ∧ (∀ n k, Constants.buildEngineDataKey n ≠ Constants.buildTargetDataKey k) := by
  have key : ∀ (p : QString) (n : Nat) (ks : List QString),
      (ks.all fun k => decide (k.data.take p.data.length ≠ p.data)) = true →
        p ++ Constants.number n ∉ ks := by
    intro p n ks hall hmem
    have h1 := List.all_eq_true.mp hall _ hmem
    have h2 := Constants.take_of_append_eq p (Constants.number n) _ rfl
    simp [h2] at h1
  refine ⟨by decide, by decide, ?_, ?_, ?_, ?_, ?_, ?_⟩
  · intro n; exact key _ n _ (by decide)
  · intro n; exact key _ n _ (by decide)
  · intro n; exact key _ n _ (by decide)
  · exact Constants.append_number_injective _
  · exact Constants.append_number_injective _
  · intro n k h
    have h2 := Constants.take_of_append_eq Constants.BUILD_ENGINES_DATA_KEY_PREFIX
      (Constants.number n) _ h
    simp only [Constants.buildTargetDataKey, String.data_append] at h2
    have h3 : (Constants.BUILD_ENGINE_TARGET_DATA_KEY_PREFIX.data
        ++ (Constants.number k).data).take 12
        = Constants.BUILD_ENGINE_TARGET_DATA_KEY_PREFIX.data := by
      simp [Constants.BUILD_ENGINE_TARGET_DATA_KEY_PREFIX]
    have h4 : Constants.BUILD_ENGINES_DATA_KEY_PREFIX.data.length = 12 := by decide
    rw [h4, h3] at h2
    revert h2
    decide

/-- C9, as stated, fails: for memorySizeMb = 0 (and -512) doSetMemorySizeMb forwards the
request unchanged to VirtualBoxManager, and completes with whatever result the manager
delivers, here success. -/
theorem doSetMemorySizeMb_forwards_nonpositive :
    doSetMemorySizeMb (fun _ _ => true) { name := "vm" } 0
        = { forwarded := [{ vmName := "vm", memorySizeMb := 0 }], completions := [true] }
    ∧ (doSetMemorySizeMb (fun _ _ => false) { name := "vm" } (-512)).forwarded
        = [{ vmName := "vm", memorySizeMb := -512 }]
    ∧ ¬ (∀ (vbox : QString → Int → Bool) (q : VBoxVirtualMachine) (memorySizeMb : Int),
          memorySizeMb ≤ 0 →
            (doSetMemorySizeMb vbox q memorySizeMb).forwarded = []
            ∧ (doSetMemorySizeMb vbox q memorySizeMb).completions = [false]) := by
  refine ⟨by decide, by decide, ?_⟩
  intro h
  have h1 := (h (fun _ _ => true) { name := "vm" } 0 (le_refl 0)).1
  simp [doSetMemorySizeMb] at h1

/-- C9, amended: doSetMemorySizeMb validates nothing: for every memory size, positive or
not, it forwards exactly one request with the name of the machine and the unchanged size to
VirtualBoxManager::setMemorySizeMb, and completes once with the result the manager delivers. -/
theorem doSetMemorySizeMb_forwards_every_size (vbox : QString → Int → Bool)
    (q : VBoxVirtualMachine) (memorySizeMb : Int) :
    (doSetMemorySizeMb vbox q memorySizeMb).forwarded
        = [{ vmName := q.name, memorySizeMb := memorySizeMb }]
    ∧ (doSetMemorySizeMb vbox q memorySizeMb).completions = [vbox q.name memorySizeMb] :=
  ⟨rfl, rfl⟩

/-- C10: constructing the Sdk while no instance exists makes Sdk::instance return the new
object; in every run of the destructor of the live object the state after the first statement
has the queue waited for and still has Sdk::instance equal to the object, and only the next
state, which leaves the drained queue as it is, has Sdk::instance null. -/
theorem sdk_instance_cleared_after_wait {Queue : Type} (fresh : Queue) (wait : Queue → Queue)
    (this : Nat) (s : SdkState Queue) (hnone : s.s_instance = none) :
    ∃ live drained cleared,
      Sdk.construct fresh this s = some live
      ∧ Sdk.instance live = some this ∧ live.waited = false
      ∧ Sdk.destruct wait live = [live, drained, cleared]
      ∧ drained.waited = true ∧ drained.commandQueue = wait live.commandQueue
      ∧ Sdk.instance drained = some this
      ∧ cleared.waited = true ∧ cleared.commandQueue = drained.commandQueue
      ∧ Sdk.instance cleared = none := by
  refine ⟨{ s_instance := some this, commandQueue := fresh, waited := false },
    { s_instance := some this, commandQueue := wait fresh, waited := true },
    { s_instance := none, commandQueue := wait fresh, waited := true }, ?_⟩
  simp [Sdk.construct, Sdk.destruct, Sdk.instance, hnone]

/-- Witness for C10: the queue is a list of pending operations and waiting empties it. -/
theorem sdk_instance_cleared_after_wait_witness :
    ∃ live drained cleared : SdkState (List Nat),
      Sdk.construct [] 7 { s_instance := none, commandQueue := [1, 2], waited := false }
        = some live
      ∧ Sdk.instance live = some 7 ∧ live.waited = false
      ∧ Sdk.destruct (fun _ => []) live = [live, drained, cleared]
      ∧ drained.waited = true ∧ drained.commandQueue = (fun _ => []) live.commandQueue
      ∧ Sdk.instance drained = some 7
      ∧ cleared.waited = true ∧ cleared.commandQueue = drained.commandQueue
      ∧ Sdk.instance cleared = none :=
  sdk_instance_cleared_after_wait [] (fun _ => [])
    7 { s_instance := none, commandQueue := [1, 2], waited := false } rfl

end Sfdk

/-! ### The bookkeeping primitives on arbitrary maps -/

namespace Sfdk

theorem QMap.value_eq_none_of_lt {m : QMap} {k : QString}
    (h : ∀ e ∈ m, k < e.1) : m.value k = none := by
  induction m with
  | nil => rfl
  | cons e rest ih =>
    obtain ⟨k0, w⟩ := e
    have h0 : k < k0 := h (k0, w) (List.mem_cons_self _ _)
    have hne : k0 ≠ k := fun heq => absurd (heq ▸ h0) (lt_irrefl _)
    simp only [QMap.value, hne, if_false]
    exact ih (fun e he => h e (List.mem_cons_of_mem _ he))

theorem QMap.mem_of_value {m : QMap} {k : QString} {v : Int} (h : m.value k = some v) :
    (k, v) ∈ m := by
  induction m with
  | nil => simp [QMap.value] at h
  | cons e rest ih =>
    obtain ⟨k0, w⟩ := e
    by_cases hk : k0 = k
    · simp only [QMap.value, hk, if_true, Option.some.injEq] at h
      subst hk; subst h
      exact List.mem_cons_self _ _
    · simp only [QMap.value, hk, if_false] at h
      exact List.mem_cons_of_mem _ (ih h)

/-- Two well-formed maps that store the same value under every key are the same map. -/
theorem QMap.ext_value : ∀ {m1 m2 : QMap}, m1.WF → m2.WF →
    (∀ k, m1.value k = m2.value k) → m1 = m2 := by
  intro m1
  induction m1 with
  | nil =>
    intro m2 _ _ h
    cases m2 with
    | nil => rfl
    | cons e rest =>
      obtain ⟨k0, w⟩ := e
      have := h k0
      simp [QMap.value] at this
  | cons e1 r1 ih =>
    intro m2 h1 h2 h
    obtain ⟨k1, v1⟩ := e1
    cases m2 with
    | nil =>
      have := h k1
      simp [QMap.value] at this
    | cons e2 r2 =>
      obtain ⟨k2, v2⟩ := e2
      have w1 := List.pairwise_cons.mp h1
      have w2 := List.pairwise_cons.mp h2
      have hk : k1 = k2 := by
        by_contra hne
        have a1 := h k1
        have a2 := h k2
        simp only [QMap.value, if_true, Ne.symm hne, hne, if_false] at a1 a2
        have b1 : k2 < k1 := w2.1 _ (QMap.mem_of_value a1.symm)
        have b2 : k1 < k2 := w1.1 _ (QMap.mem_of_value a2)
        exact absurd (lt_trans b1 b2) (lt_irrefl _)
      subst hk
      have hv : v1 = v2 := by
        have a1 := h k1
        simpa [QMap.value] using a1
      subst hv
      have hrest : r1 = r2 := by
        apply ih w1.2 w2.2
        intro k
        by_cases hkk : k1 = k
        · subst hkk
          rw [QMap.value_eq_none_of_lt w1.1, QMap.value_eq_none_of_lt w2.1]
        · have a := h k
          simpa [QMap.value, hkk] using a
      rw [hrest]

/-- C16, as stated, fails: for a machine named "x" and a map without an entry for "x",
prepareForNameChange does not leave the map unchanged; operator[] creates the entry with 0
and the decrement leaves it at -1, below one. -/
theorem prepareForNameChange_absent_name_goes_negative :
    QMap.value [] "x" = none
    ∧ prepareForNameChange { name := "x" } [] = [("x", -1)]
    ∧ prepareForNameChange { name := "x" } [] ≠ []
    ∧ ¬ (∀ (m : QMap) (q : VBoxVirtualMachine), q.name ≠ "" →
          ∀ k c, (prepareForNameChange q m).value k = some c → 1 ≤ c) := by
  refine ⟨by decide, by decide, by decide, ?_⟩
  intro h
  exact absurd (h [] { name := "x" } (by decide) "x" (-1) (by decide)) (by decide)

/-- C16, amended: for every map whose stored counts are all at least one and in which the
non-empty name of the machine has an entry, prepareForNameChange leaves no stored count below
one: the count of that name is lowered by one, its entry is removed when that makes it zero,
and every other entry is unchanged. -/
theorem prepareForNameChange_keeps_counts_positive (m : QMap) (q : VBoxVirtualMachine)
    (hname : q.name ≠ "") (c0 : Int) (hentry : m.value q.name = some c0)
    (hpos : ∀ k c, m.value k = some c → 1 ≤ c) :
    (∀ k c, (prepareForNameChange q m).value k = some c → 1 ≤ c)
    ∧ (prepareForNameChange q m).value q.name = (if c0 = 1 then none else some (c0 - 1))
    ∧ (∀ k, k ≠ q.name → (prepareForNameChange q m).value k = m.value k) := by
  have hc0 : 1 ≤ c0 := hpos _ _ hentry
  have hval : ∀ k, (prepareForNameChange q m).value k
      = if k = q.name then (if c0 = 1 then none else some (c0 - 1)) else m.value k := by
    intro k
    rw [prepareForNameChange_value]
    by_cases hk : k = q.name
    · subst hk
      have hu : usedCount m q.name = c0 := by simp [usedCount, hentry]
      by_cases h1 : c0 = 1
      · simp [hname, hu, h1]
      · have : ¬ c0 - 1 = 0 := by omega
        simp [hname, hu, h1, this]
    · simp [hk]
  refine ⟨?_, ?_, ?_⟩
  · intro k c hk
    rw [hval] at hk
    by_cases hkq : k = q.name
    · by_cases h1 : c0 = 1
      · simp [hkq, h1] at hk
      · simp only [hkq, h1, if_true, if_false, Option.some.injEq] at hk
        omega
    · simp only [hkq, if_false] at hk
      exact hpos _ _ hk
  · rw [hval]; simp
  · intro k hk
    rw [hval]; simp [hk]

/-- Witness for the amended C16: "a" is held twice and "b" once; a machine named "a" goes. -/
theorem prepareForNameChange_keeps_counts_positive_witness :
    (prepareForNameChange { name := "a" } [("a", 2), ("b", 1)]).value "a"
      = (if (2 : Int) = 1 then none else some (2 - 1)) :=
  (prepareForNameChange_keeps_counts_positive [("a", 2), ("b", 1)] { name := "a" } (by decide) 2
    (by decide) (by
      intro k c h
      simp only [QMap.value] at h
      split at h
      · simp only [Option.some.injEq] at h; omega
      · split at h
        · simp only [Option.some.injEq] at h; omega
        · simp at h)).2.1

/-- C17: for every well-formed map and every non-empty name whose stored count is at least
one, prepareForNameChange followed by onNameChanged for the same name gives back the very
same map, both when the count is one (the entry is removed and created again) and when it is
larger; in between the name has no entry when the count was one and the count lowered by one
otherwise, never a negative one. -/
theorem reuse_same_name_restores_map (m : QMap) (q : VBoxVirtualMachine) (c : Int)
    (hwf : m.WF) (hname : q.name ≠ "") (hentry : m.value q.name = some c) (hc : 1 ≤ c) :
    (onNameChanged q (prepareForNameChange q m)).1 = m
    ∧ (prepareForNameChange q m).value q.name = (if c = 1 then none else some (c - 1))
    ∧ 0 ≤ usedCount (prepareForNameChange q m) q.name := by
  have hu : usedCount m q.name = c := by simp [usedCount, hentry]
  have hmid : (prepareForNameChange q m).value q.name
      = (if c = 1 then none else some (c - 1)) := by
    rw [prepareForNameChange_value]
    simp only [hname, false_or, ne_eq, not_true_eq_false, if_false, hu]
    by_cases h1 : c = 1
    · simp [h1]
    · have : ¬ c - 1 = 0 := by omega
      simp [h1, this]
  refine ⟨?_, hmid, ?_⟩
  swap
  · unfold usedCount
    rw [hmid]
    by_cases h1 : c = 1
    · simp [h1]
    · simp only [h1, if_false, Option.getD_some]; omega
  apply QMap.ext_value (onNameChanged_WF _ (prepareForNameChange_WF _ hwf)) hwf
  intro k
  rw [onNameChanged_value]
  by_cases hk : k = q.name
  · subst hk
    simp only [hname, false_or, ne_eq, not_true_eq_false, if_false, usedCount]
    rw [prepareForNameChange_value]
    simp only [hname, false_or, ne_eq, not_true_eq_false, if_false, hu, hentry]
    by_cases h1 : c - 1 = 0
    · simp only [h1, if_true, Option.getD_none]
      congr 1; omega
    · simp [h1]
  · simp only [hk, ne_eq, not_false_eq_true, or_true, if_true]
    rw [prepareForNameChange_value]
    simp [hk]

/-- Witness for C17: the name "b" with count one, and the name "a" with count two. -/
theorem reuse_same_name_restores_map_witness :
    (onNameChanged { name := "b" } (prepareForNameChange { name := "b" } [("a", 2), ("b", 1)])).1
        = [("a", 2), ("b", 1)]
    ∧ (onNameChanged { name := "a" } (prepareForNameChange { name := "a" } [("a", 2), ("b", 1)])).1
        = [("a", 2), ("b", 1)] :=
  ⟨(reuse_same_name_restores_map [("a", 2), ("b", 1)] { name := "b" } 1
      (by simp [QMap.WF]; decide) (by decide) (by decide) (by decide)).1,
   (reuse_same_name_restores_map [("a", 2), ("b", 1)] { name := "a" } 2
      (by simp [QMap.WF]; decide) (by decide) (by decide) (by decide)).1⟩

end Sfdk

/-! ### The file wizard -/

namespace Core

open Sfdk (QString)

theorem or_eq_zero_iff (x y : Nat) : x ||| y = 0 ↔ x = 0 ∧ y = 0 := by
  constructor
  · intro h
    have hb : ∀ i, (x.testBit i || y.testBit i) = false := by
      intro i
      rw [← Nat.testBit_or, h, Nat.zero_testBit]
    constructor
    · apply Nat.eq_of_testBit_eq
      intro i
      have := hb i
      simp only [Bool.or_eq_false_iff] at this
      simp [this.1]
    · apply Nat.eq_of_testBit_eq
      intro i
      have := hb i
      simp only [Bool.or_eq_false_iff] at this
      simp [this.2]
  · rintro ⟨rfl, rfl⟩; rfl

theorem noWrite_iff (a c k : Nat) : a &&& (c ||| k) = 0 ↔ a &&& c = 0 ∧ a &&& k = 0 := by
  rw [Nat.and_or_distrib_left, or_eq_zero_iff]

/-- C11: for every path, base name and extension, buildFileName returns P + baseName + E,
where P is the path when it is empty or ends with the separator and the path followed by
the separator otherwise, and E is empty when the extension is empty or the base name already
has one (contains a dot), and otherwise the extension, with a dot put in front only when it
does not start with one. -/
theorem buildFileName_eq (separator : Char) (path baseName extension : QString) :
    buildFileName separator path baseName extension
      = (if path = "" ∨ endsWithChar path separator = true then path
         else path ++ separator.toString)
        ++ baseName
        ++ (if extension = "" ∨ containsChar baseName '.' = true then ""
            else if startsWithChar extension '.' = true then extension
            else "." ++ extension) := by
  have hE : ∀ s : QString, Sfdk.QString.isEmpty s = decide (s = "") := by
    intro s
    by_cases h : s = ""
    · subst h; rfl
    · cases h2 : Sfdk.QString.isEmpty s
      · simp [h]
      · exact absurd ((Sfdk.QString.isEmpty_iff s).mp h2) h
  have hpush : ∀ (s : String) (c : Char), s.push c = s ++ c.toString := by
    intro s c
    apply String.ext
    simp [String.data_push, String.data_append, Char.toString, String.singleton]
  have hdot : '.'.toString = "." := rfl
  unfold buildFileName
  simp only [hE, hpush, hdot]
  by_cases hp : path = "" <;> by_cases hsep : endsWithChar path separator = true <;>
    by_cases he : extension = "" <;> by_cases hb : containsChar baseName '.' = true <;>
    by_cases hs : startsWithChar extension '.' = true <;>
    simp [hp, hsep, he, hb, hs, String.append_assoc]


theorem writeFiles_spec {σ : Type} (A : AttributeMasks) (write : σ → GeneratedFile → Bool × σ) :
    ∀ (files : GeneratedFiles) (fs : σ),
      List.IsPrefix ((writeFiles A write fs files).2.2.map Prod.fst) (writableFiles A files)
      ∧ ((writeFiles A write fs files).1 = true →
          (writeFiles A write fs files).2.2.map Prod.fst = writableFiles A files
          ∧ ∀ e ∈ (writeFiles A write fs files).2.2, e.2 = true)
      ∧ ((writeFiles A write fs files).1 = false →
          ∃ pre f, (writeFiles A write fs files).2.2 = pre ++ [(f, false)]
            ∧ ∀ e ∈ pre, e.2 = true) := by
  intro files
  induction files with
  | nil =>
    intro fs
    simp [writeFiles, writableFiles]
  | cons g rest ih =>
    intro fs
    by_cases hg : g.attributes &&& (A.CustomGeneratorAttribute ||| A.KeepExistingFileAttribute) = 0
    · have hg2 := (noWrite_iff _ _ _).mp hg
      have hw : writableFiles A (g :: rest) = g :: writableFiles A rest := by
        simp [writableFiles, hg2]
      cases hr : (write fs g).1
      · have e : writeFiles A write fs (g :: rest) = (false, (write fs g).2, [(g, false)]) := by
          simp [writeFiles, hg, hr]
        rw [e, hw]
        refine ⟨?_, by simp, ?_⟩
        · exact ⟨writableFiles A rest, by simp⟩
        · intro _
          exact ⟨[], g, by simp, by simp⟩
      · have e : writeFiles A write fs (g :: rest)
            = ((writeFiles A write (write fs g).2 rest).1,
               (writeFiles A write (write fs g).2 rest).2.1,
               (g, true) :: (writeFiles A write (write fs g).2 rest).2.2) := by
          simp [writeFiles, hg, hr]
        obtain ⟨i1, i2, i3⟩ := ih (write fs g).2
        rw [e, hw]
        refine ⟨?_, ?_, ?_⟩
        · simp only [List.map_cons]
          exact (List.prefix_cons_inj g).mpr i1
        · intro ht
          obtain ⟨a, b⟩ := i2 ht
          refine ⟨by simp [a], ?_⟩
          intro x hx
          rcases List.mem_cons.mp hx with hx | hx
          · rw [hx]
          · exact b x hx
        · intro hf
          obtain ⟨pre, f, a, b⟩ := i3 hf
          refine ⟨(g, true) :: pre, f, by simp [a], ?_⟩
          intro x hx
          rcases List.mem_cons.mp hx with hx | hx
          · rw [hx]
          · exact b x hx
    · have hg2 : ¬ (g.attributes &&& A.CustomGeneratorAttribute = 0
          ∧ g.attributes &&& A.KeepExistingFileAttribute = 0) :=
        fun h => hg ((noWrite_iff _ _ _).mpr h)
      have hw : writableFiles A (g :: rest) = writableFiles A rest := by
        simp only [writableFiles, List.filter_cons, hg2, decide_False, Bool.false_eq_true, if_false]
      have e : writeFiles A write fs (g :: rest) = writeFiles A write fs rest := by
        simp [writeFiles, hg]
      rw [e, hw]
      exact ih fs

theorem writeFiles_outcomes {σ : Type} (A : AttributeMasks)
    (write : σ → GeneratedFile → Bool × σ) :
    ∀ (files : GeneratedFiles) (fs : σ),
      (writeFiles A write fs files).2.1
          = fsAfter write fs ((writeFiles A write fs files).2.2.map Prod.fst)
      ∧ ∀ pre e post, (writeFiles A write fs files).2.2 = pre ++ e :: post →
          e.2 = (write (fsAfter write fs (pre.map Prod.fst)) e.1).1 := by
  intro files
  induction files with
  | nil =>
    intro fs
    simp [writeFiles, fsAfter]
  | cons g rest ih =>
    intro fs
    by_cases hg : g.attributes &&& (A.CustomGeneratorAttribute ||| A.KeepExistingFileAttribute) = 0
    · cases hr : (write fs g).1
      · have e : writeFiles A write fs (g :: rest) = (false, (write fs g).2, [(g, false)]) := by
          simp [writeFiles, hg, hr]
        rw [e]
        refine ⟨by simp [fsAfter], ?_⟩
        intro pre x post hx
        cases pre with
        | nil =>
          simp only [List.nil_append, List.cons.injEq] at hx
          rw [← hx.1]
          simp [fsAfter, hr]
        | cons p pre2 =>
          simp only [List.cons_append, List.cons.injEq] at hx
          have := hx.2
          simp at this
      · have e : writeFiles A write fs (g :: rest)
            = ((writeFiles A write (write fs g).2 rest).1,
               (writeFiles A write (write fs g).2 rest).2.1,
               (g, true) :: (writeFiles A write (write fs g).2 rest).2.2) := by
          simp [writeFiles, hg, hr]
        obtain ⟨i1, i2⟩ := ih (write fs g).2
        rw [e]
        refine ⟨?_, ?_⟩
        · simp only [List.map_cons, fsAfter, List.foldl_cons]
          exact i1
        · intro pre x post hx
          cases pre with
          | nil =>
            simp only [List.nil_append, List.cons.injEq] at hx
            rw [← hx.1]
            simp [fsAfter, hr]
          | cons p pre2 =>
            simp only [List.cons_append, List.cons.injEq] at hx
            have := i2 pre2 x post hx.2
            rw [← hx.1]
            simpa [fsAfter] using this
    · have e : writeFiles A write fs (g :: rest) = writeFiles A write fs rest := by
        simp [writeFiles, hg]
      rw [e]
      exact ih fs

/-- C12: writeFiles applies GeneratedFile::write, in list order and each time to the file
system the earlier writes left, only to files that carry neither CustomGeneratorAttribute nor
KeepExistingFileAttribute (the files written are a prefix of those files; a file with either
attribute is never written); the file system it leaves is the one after exactly these writes,
and every logged outcome is what write returned; it returns true exactly when every such file
was written and every write succeeded; and when it returns false the last write is the first
failing one, so no later file is written. -/
theorem writeFiles_writes_unflagged_until_failure {σ : Type} (A : AttributeMasks)
    (write : σ → GeneratedFile → Bool × σ) (files : GeneratedFiles) (fs : σ) :
    List.IsPrefix ((writeFiles A write fs files).2.2.map Prod.fst) (writableFiles A files)
    ∧ (∀ e ∈ (writeFiles A write fs files).2.2,
        e.1 ∈ files ∧ e.1.attributes &&& A.CustomGeneratorAttribute = 0
          ∧ e.1.attributes &&& A.KeepExistingFileAttribute = 0)
    ∧ (writeFiles A write fs files).2.1
        = fsAfter write fs ((writeFiles A write fs files).2.2.map Prod.fst)
    ∧ (∀ pre e post, (writeFiles A write fs files).2.2 = pre ++ e :: post →
        e.2 = (write (fsAfter write fs (pre.map Prod.fst)) e.1).1)
    ∧ ((writeFiles A write fs files).1 = true ↔
        (writeFiles A write fs files).2.2.map Prod.fst = writableFiles A files
          ∧ ∀ e ∈ (writeFiles A write fs files).2.2, e.2 = true)
    ∧ ((writeFiles A write fs files).1 = false →
        ∃ pre f, (writeFiles A write fs files).2.2 = pre ++ [(f, false)]
          ∧ (∀ e ∈ pre, e.2 = true)
          ∧ (write (fsAfter write fs (pre.map Prod.fst)) f).1 = false) := by
  obtain ⟨h1, h2, h3⟩ := writeFiles_spec A write files fs
  obtain ⟨h4, h5⟩ := writeFiles_outcomes A write files fs
  refine ⟨h1, ?_, h4, h5, ⟨h2, ?_⟩, ?_⟩
  · intro e he
    have hm : e.1 ∈ (writeFiles A write fs files).2.2.map Prod.fst :=
      List.mem_map_of_mem Prod.fst he
    have hm2 : e.1 ∈ writableFiles A files := h1.subset hm
    simpa [writableFiles] using hm2
  · rintro ⟨-, hall⟩
    cases hres : (writeFiles A write fs files).1
    · obtain ⟨pre, f, a, -⟩ := h3 hres
      have := hall (f, false) (by rw [a]; simp)
      simp at this
    · rfl
  · intro hres
    obtain ⟨pre, f, a, b⟩ := h3 hres
    refine ⟨pre, f, a, b, ?_⟩
    have := h5 pre (f, false) [] a
    exact this.symm

/-- Witness for C12: four files, the second kept, the third failing to write; the file system
counts the writes applied. -/
theorem writeFiles_writes_unflagged_until_failure_witness :
    (writeFiles { OpenEditorAttribute := 1, OpenProjectAttribute := 2,
                  CustomGeneratorAttribute := 4, KeepExistingFileAttribute := 8 }
        (fun (n : Nat) f => (decide (f.path ≠ "c"), n + 1)) 0
        [⟨"a", 1⟩, ⟨"b", 9⟩, ⟨"c", 0⟩, ⟨"d", 0⟩]).2.1
      = fsAfter (fun (n : Nat) f => (decide (f.path ≠ "c"), n + 1)) 0
          ((writeFiles { OpenEditorAttribute := 1, OpenProjectAttribute := 2,
                         CustomGeneratorAttribute := 4, KeepExistingFileAttribute := 8 }
              (fun (n : Nat) f => (decide (f.path ≠ "c"), n + 1)) 0
              [⟨"a", 1⟩, ⟨"b", 9⟩, ⟨"c", 0⟩, ⟨"d", 0⟩]).2.2.map Prod.fst) :=
  (writeFiles_writes_unflagged_until_failure
    { OpenEditorAttribute := 1, OpenProjectAttribute := 2,
      CustomGeneratorAttribute := 4, KeepExistingFileAttribute := 8 }
    (fun (n : Nat) f => (decide (f.path ≠ "c"), n + 1))
    [⟨"a", 1⟩, ⟨"b", 9⟩, ⟨"c", 0⟩, ⟨"d", 0⟩] 0).2.2.1

theorem checkExisting_odd (env : PromptEnv) (common : QString) :
    ∀ (l : List QString) (acc : QString × Bool),
      (checkExisting env common l acc).2 = (acc.2 || l.any (blocksOverwrite env)) := by
  intro l
  induction l with
  | nil => intro acc; simp [checkExisting]
  | cons p rest ih =>
    intro acc
    obtain ⟨msg, odd⟩ := acc
    unfold checkExisting
    cases h1 : (env.fileInfo p).exists_ <;> cases h2 : (env.fileInfo p).isDir <;>
      cases h3 : (env.fileInfo p).isSymLink <;> cases h4 : (env.fileInfo p).isWritable <;>
      simp [h1, h2, h3, h4, ih, blocksOverwrite]

theorem mem_existingFiles {env : PromptEnv} {files : GeneratedFiles} {f : GeneratedFile}
    (hf : f ∈ files) (he : (env.fileInfo f.path).exists_ = true) :
    f.path ∈ existingFiles env files := by
  unfold existingFiles
  exact List.mem_map_of_mem _ (List.mem_filter.mpr ⟨hf, he⟩)

/-- C13: when no generated path exists promptOverwrite returns OverwriteOk, and when some
existing path is a folder, a symbolic link or not writable it returns OverwriteError with the
error message assigned; in both cases the overwrite dialog is never executed and the file list
with its attributes is left as it was. -/
theorem promptOverwrite_decides_without_dialog (A : AttributeMasks) (env : PromptEnv)
    (files : GeneratedFiles) :
    ((∀ f ∈ files, (env.fileInfo f.path).exists_ = false) →
        promptOverwrite A env files
          = { result := .OverwriteOk, files := files, errorMessage := none, dialogsShown := 0 })
    ∧ ((∃ f ∈ files, blocksOverwrite env f.path = true) →
        (promptOverwrite A env files).result = .OverwriteError
        ∧ (promptOverwrite A env files).errorMessage
            = some (env.cannotOverwriteMsg
                (env.toNativeSeparators (env.commonPath (existingFiles env files)))
                (checkExisting env (env.commonPath (existingFiles env files))
                  (existingFiles env files) ("", false)).1)
        ∧ (promptOverwrite A env files).files = files
        ∧ (promptOverwrite A env files).dialogsShown = 0) := by
  constructor
  · intro h
    have he : existingFiles env files = [] := by
      unfold existingFiles
      rw [List.map_eq_nil_iff, List.filter_eq_nil_iff]
      intro f hf
      simp [h f hf]
    simp [promptOverwrite, he]
  · rintro ⟨f, hf, hb⟩
    have hex : (env.fileInfo f.path).exists_ = true := by
      simp only [blocksOverwrite, Bool.and_eq_true] at hb
      exact hb.1
    have hmem := mem_existingFiles hf hex
    have hne : (existingFiles env files).isEmpty = false := by
      cases h : existingFiles env files with
      | nil => rw [h] at hmem; simp at hmem
      | cons a l => rfl
    have hodd : (checkExisting env (env.commonPath (existingFiles env files))
        (existingFiles env files) ("", false)).2 = true := by
      rw [checkExisting_odd]
      simp only [Bool.false_or, List.any_eq_true]
      exact ⟨f.path, hmem, hb⟩
    simp [promptOverwrite, hne, hodd]

/-- Witness for C13: a file list none of whose paths exists, and one with a folder in the
way. -/
theorem promptOverwrite_decides_without_dialog_witness :
    promptOverwrite sampleMasks sampleEnv [⟨"/p/new", 1⟩]
        = { result := .OverwriteOk, files := [⟨"/p/new", 1⟩], errorMessage := none,
            dialogsShown := 0 }
    ∧ (promptOverwrite sampleMasks sampleEnv [⟨"/p/a", 0⟩, ⟨"/p/dir", 0⟩]).result
        = .OverwriteError :=
  ⟨(promptOverwrite_decides_without_dialog sampleMasks sampleEnv [⟨"/p/new", 1⟩]).1 (by decide),
   ((promptOverwrite_decides_without_dialog sampleMasks sampleEnv
      [⟨"/p/a", 0⟩, ⟨"/p/dir", 0⟩]).2 ⟨⟨"/p/dir", 0⟩, by decide, by decide⟩).1⟩

theorem indexOfFile_none {files : GeneratedFiles} {p : QString}
    (h : indexOfFile files p = none) : ∀ f ∈ files, f.path ≠ p := by
  induction files with
  | nil => simp
  | cons g rest ih =>
    unfold indexOfFile at h
    by_cases hg : g.path = p
    · simp [hg] at h
    · simp only [hg, if_false] at h
      cases hr : indexOfFile rest p with
      | none =>
        intro f hf
        rcases List.mem_cons.mp hf with hf | hf
        · rw [hf]; exact hg
        · exact ih hr f hf
      | some j => simp [hr] at h

theorem modify_at_indexOfFile (A : AttributeMasks) (p : QString) :
    ∀ (files : GeneratedFiles) (i : Nat), (files.map GeneratedFile.path).Nodup →
      indexOfFile files p = some i →
      files.modify (keepExisting A) i
        = files.map (fun f => if f.path = p then keepExisting A f else f) := by
  intro files
  induction files with
  | nil => intro i _ h; simp [indexOfFile] at h
  | cons g rest ih =>
    intro i hnd h
    have hnd2 : g.path ∉ rest.map GeneratedFile.path ∧ (rest.map GeneratedFile.path).Nodup :=
      List.nodup_cons.mp hnd
    unfold indexOfFile at h
    by_cases hg : g.path = p
    · simp only [hg, if_true, Option.some.injEq] at h
      subst h
      have hrest : rest.map (fun f => if f.path = p then keepExisting A f else f) = rest := by
        conv_rhs => rw [← List.map_id rest]
        apply List.map_congr_left
        intro f hf
        have : f.path ≠ p := by
          intro hfp
          apply hnd2.1
          rw [hg, ← hfp]
          exact List.mem_map_of_mem _ hf
        simp [this]
      simp [List.modify, List.modifyTailIdx, List.modifyHead, hg, hrest]
    · simp only [hg, if_false] at h
      cases hr : indexOfFile rest p with
      | none => simp [hr] at h
      | some j =>
        simp only [hr, Option.some.injEq] at h
        subst h
        have := ih j hnd2.2 hr
        simp only [List.map_cons, hg, if_false]
        rw [← this]
        simp [List.modify, List.modifyTailIdx]

theorem setKeepAttributes_nodup (A : AttributeMasks) :
    ∀ (keep : List QString) (files : GeneratedFiles), (files.map GeneratedFile.path).Nodup →
      (setKeepAttributes A files keep).2 = true →
      (setKeepAttributes A files keep).1
        = files.map (fun f => if f.path ∈ keep then keepExisting A f else f) := by
  intro keep
  induction keep with
  | nil => intro files _ _; simp [setKeepAttributes]
  | cons p rest ih =>
    intro files hnd hok
    unfold setKeepAttributes at hok ⊢
    cases hi : indexOfFile files p with
    | none => simp [hi] at hok
    | some i =>
      simp only [hi] at hok ⊢
      have hm := modify_at_indexOfFile A p files i hnd hi
      rw [hm] at hok ⊢
      have hpaths : (files.map (fun f => if f.path = p then keepExisting A f else f)).map
          GeneratedFile.path = files.map GeneratedFile.path := by
        rw [List.map_map]
        apply List.map_congr_left
        intro f _
        by_cases hf : f.path = p <;> simp [hf, keepExisting]
      rw [ih _ (by rw [hpaths]; exact hnd) hok, List.map_map]
      apply List.map_congr_left
      intro f _
      by_cases hf : f.path = p
      · by_cases hr : p ∈ rest
        · simp [hf, hr, keepExisting, Nat.or_assoc, Nat.or_self]
        · simp [hf, hr, keepExisting]
      · by_cases hr : f.path ∈ rest
        · simp [hf, hr]
        · simp [hf, hr]

/-- C14, as stated, fails: two generated files share the path "/p/a"; the user accepts the
dialog leaving "/p/a" unchecked; promptOverwrite returns OverwriteOk, yet only the first of
the two files gets KeepExistingFileAttribute and the second keeps its attributes. -/
theorem promptOverwrite_duplicate_path_not_kept :
    sampleEnv.dialogExec
        (existingFiles sampleEnv [⟨"/p/a", 0⟩, ⟨"/p/a", 0⟩, ⟨"/p/new", 1⟩])
        (disabledFiles sampleMasks [⟨"/p/a", 0⟩, ⟨"/p/a", 0⟩, ⟨"/p/new", 1⟩])
      = { accepted := true, uncheckedFiles := ["/p/a"] }
    ∧ promptOverwrite sampleMasks sampleEnv [⟨"/p/a", 0⟩, ⟨"/p/a", 0⟩, ⟨"/p/new", 1⟩]
      = { result := .OverwriteOk, files := [⟨"/p/a", 8⟩, ⟨"/p/a", 0⟩, ⟨"/p/new", 1⟩],
          errorMessage := none, dialogsShown := 1 }
    ∧ (promptOverwrite sampleMasks sampleEnv [⟨"/p/a", 0⟩, ⟨"/p/a", 0⟩, ⟨"/p/new", 1⟩]).files
      ≠ [⟨"/p/a", 0⟩, ⟨"/p/a", 0⟩, ⟨"/p/new", 1⟩].map
          (fun f => if f.path ∈ ["/p/a"] then keepExisting sampleMasks f else f) := by
  refine ⟨by decide, by decide, by decide⟩

/-- C14, amended: when the generated files have pairwise distinct paths and the user accepted
the dialog, a result of OverwriteOk means that exactly the files whose path was left
unchecked have KeepExistingFileAttribute or-ed into their attributes (path and other bits
kept) and every other file is unchanged; and when the number of unchecked files equals the
number of generated files the result is OverwriteCanceled with the file list unchanged. -/
theorem promptOverwrite_marks_unchecked (A : AttributeMasks) (env : PromptEnv)
    (files : GeneratedFiles) (hdistinct : (files.map GeneratedFile.path).Nodup)
    (hshown : (promptOverwrite A env files).dialogsShown = 1)
    (haccepted : (env.dialogExec (existingFiles env files) (disabledFiles A files)).accepted
      = true) :
    ((promptOverwrite A env files).result = .OverwriteOk →
        (promptOverwrite A env files).files
          = files.map (fun f =>
              if f.path ∈ (env.dialogExec (existingFiles env files)
                  (disabledFiles A files)).uncheckedFiles
              then keepExisting A f else f))
    ∧ ((env.dialogExec (existingFiles env files) (disabledFiles A files)).uncheckedFiles.length
          = files.length →
        (promptOverwrite A env files).result = .OverwriteCanceled
        ∧ (promptOverwrite A env files).files = files)
    ∧ (∀ f : GeneratedFile, (keepExisting A f).path = f.path
        ∧ ∀ i, (keepExisting A f).attributes.testBit i
            = (f.attributes.testBit i || A.KeepExistingFileAttribute.testBit i)) := by
  have hne : (existingFiles env files).isEmpty = false := by
    cases h : (existingFiles env files).isEmpty
    · rfl
    · simp [promptOverwrite, h] at hshown
  have hodd : (checkExisting env (env.commonPath (existingFiles env files))
      (existingFiles env files) ("", false)).2 = false := by
    cases h : (checkExisting env (env.commonPath (existingFiles env files))
      (existingFiles env files) ("", false)).2
    · rfl
    · simp [promptOverwrite, hne, h] at hshown
  refine ⟨?_, ?_, ?_⟩
  · intro hok
    by_cases hlen : (env.dialogExec (existingFiles env files)
        (disabledFiles A files)).uncheckedFiles.length = files.length
    · simp [promptOverwrite, hne, hodd, haccepted, hlen] at hok
    · cases hkept : (setKeepAttributes A files (env.dialogExec (existingFiles env files)
          (disabledFiles A files)).uncheckedFiles).2
      · simp [promptOverwrite, hne, hodd, haccepted, hlen, hkept] at hok
      · have := setKeepAttributes_nodup A _ files hdistinct hkept
        simp [promptOverwrite, hne, hodd, haccepted, hlen, hkept, this]
  · intro hlen
    simp [promptOverwrite, hne, hodd, haccepted, hlen]
  · intro f
    exact ⟨rfl, fun i => by simp [keepExisting, Nat.testBit_or]⟩

/-- Witness for the amended C14: three files with distinct paths, the first left unchecked. -/
theorem promptOverwrite_marks_unchecked_witness :
    (promptOverwrite sampleMasks sampleEnv [⟨"/p/a", 0⟩, ⟨"/p/b", 1⟩, ⟨"/p/new", 1⟩]).files
      = [⟨"/p/a", 0⟩, ⟨"/p/b", 1⟩, ⟨"/p/new", 1⟩].map (fun f =>
          if f.path ∈ (sampleEnv.dialogExec
              (existingFiles sampleEnv [⟨"/p/a", 0⟩, ⟨"/p/b", 1⟩, ⟨"/p/new", 1⟩])
              (disabledFiles sampleMasks
                [⟨"/p/a", 0⟩, ⟨"/p/b", 1⟩, ⟨"/p/new", 1⟩])).uncheckedFiles
          then keepExisting sampleMasks f else f) :=
  (promptOverwrite_marks_unchecked sampleMasks sampleEnv
    [⟨"/p/a", 0⟩, ⟨"/p/b", 1⟩, ⟨"/p/new", 1⟩] (by decide) (by decide) (by decide)).1
    (by decide)


theorem needGenerateFiles_iff (pages : List Nat) (step : WizardStep) :
    needGenerateFiles pages step = true ↔
      (step.wr = .PageChanged ∧ step.currentPage = firstExtensionPage pages)
      ∨ (step.wr = .Accepted ∧ pages = []) := by
  simp [needGenerateFiles, firstExtensionPageHit, List.isEmpty_iff]

theorem generateFiles_not_mem_shown (j : Nat) (b : Bool) (n : Nat) :
    WizardAction.generateFiles j ∉
      (if b = true then (List.range n).map WizardAction.firstExtensionPageShown else []) := by
  cases b <;> simp

theorem wizardLoop_generates (generateFiles : Nat → GeneratedFiles × QString) (n : Nat)
    (pages : List Nat) :
    ∀ (rest : List WizardStep) (i : Nat) (files0 : GeneratedFiles) (trace0 : List WizardAction)
      (r : LoopOutcome),
      wizardLoop generateFiles n pages i rest files0 trace0 = some r →
      i < r.iterations ∧
      ∀ j, (WizardAction.generateFiles j ∈ r.trace ↔
        WizardAction.generateFiles j ∈ trace0
          ∨ (i ≤ j ∧ j < r.iterations
              ∧ ∃ step, rest[j - i]? = some step ∧ needGenerateFiles pages step = true)) := by
  intro rest
  induction rest with
  | nil => intro i files0 trace0 r h; simp [wizardLoop] at h
  | cons step rest ih =>
    intro i files0 trace0 r h
    have hhere : ∀ j, (i ≤ j ∧ j < i + 1
        ∧ ∃ s, (step :: rest)[j - i]? = some s ∧ needGenerateFiles pages s = true)
        ↔ (j = i ∧ needGenerateFiles pages step = true) := by
      intro j
      constructor
      · rintro ⟨h1, h2, s, hs, hn⟩
        have hj : j = i := by omega
        subst hj
        simp at hs
        subst hs
        exact ⟨rfl, hn⟩
      · rintro ⟨rfl, hn⟩
        exact ⟨le_refl _, Nat.lt_succ_self _, step, by simp, hn⟩
    have hlater : ∀ (j m : Nat), i + 1 < m → ((i ≤ j ∧ j < m
        ∧ ∃ s, (step :: rest)[j - i]? = some s ∧ needGenerateFiles pages s = true)
        ↔ ((j = i ∧ needGenerateFiles pages step = true)
            ∨ (i + 1 ≤ j ∧ j < m
                ∧ ∃ s, rest[j - (i + 1)]? = some s ∧ needGenerateFiles pages s = true))) := by
      intro j m hm
      constructor
      · rintro ⟨h1, h2, s, hs, hn⟩
        by_cases hj : j = i
        · subst hj
          simp at hs
          subst hs
          exact Or.inl ⟨rfl, hn⟩
        · have e : j - i = (j - (i + 1)) + 1 := by omega
          rw [e] at hs
          simp only [List.getElem?_cons_succ] at hs
          exact Or.inr ⟨by omega, h2, s, hs, hn⟩
      · rintro (⟨rfl, hn⟩ | ⟨h1, h2, s, hs, hn⟩)
        · exact ⟨le_refl _, by omega, step, by simp, hn⟩
        · have e : j - i = (j - (i + 1)) + 1 := by omega
          refine ⟨by omega, h2, s, ?_, hn⟩
          rw [e]
          simpa using hs
    have hshown := fun j => generateFiles_not_mem_shown j (firstExtensionPageHit pages step) n
    unfold wizardLoop at h
    by_cases hrej : step.wr = .Rejected
    · simp only [hrej, if_true, Option.some.injEq] at h
      subst h
      refine ⟨Nat.lt_succ_self _, ?_⟩
      intro j
      have hn : needGenerateFiles pages step = false := by
        simp [needGenerateFiles, firstExtensionPageHit, hrej]
      simp [hhere, hn]
    · simp only [hrej, if_false] at h
      by_cases hneed : needGenerateFiles pages step = true
      · simp only [hneed, if_true] at h
        by_cases hemp : (generateFiles i).1.isEmpty = true
        · simp only [hemp, if_true, Option.some.injEq] at h
          subst h
          refine ⟨Nat.lt_succ_self _, ?_⟩
          intro j
          simp only [hhere, hneed, and_true, List.mem_append, List.mem_cons,
            WizardAction.generateFiles.injEq, List.mem_singleton, reduceCtorEq, or_false,
            List.not_mem_nil]
        · simp only [hemp, Bool.false_eq_true, if_false] at h
          by_cases hacc : step.wr = .Accepted
          · simp only [hacc, decide_True, if_true, Option.some.injEq] at h
            subst h
            refine ⟨Nat.lt_succ_self _, ?_⟩
            intro j
            simp only [hhere, hneed, and_true, List.mem_append, List.mem_cons,
              WizardAction.generateFiles.injEq, List.not_mem_nil, or_false, hshown j]
          · simp only [hacc, decide_False, Bool.false_eq_true, if_false] at h
            obtain ⟨h1, h2⟩ := ih _ _ _ _ h
            refine ⟨by omega, ?_⟩
            intro j
            rw [h2 j, hlater j r.iterations h1]
            simp only [hneed, and_true, List.mem_append, List.mem_cons,
              WizardAction.generateFiles.injEq, List.not_mem_nil, or_false, hshown j, or_assoc]
      · simp only [hneed, Bool.false_eq_true, if_false] at h
        by_cases hacc : step.wr = .Accepted
        · simp only [hacc, decide_True, if_true, Option.some.injEq] at h
          subst h
          refine ⟨Nat.lt_succ_self _, ?_⟩
          intro j
          simp only [hhere, hneed, Bool.false_eq_true, and_false, or_false, List.mem_append,
            hshown j]
        · simp only [hacc, decide_False, Bool.false_eq_true, if_false] at h
          obtain ⟨h1, h2⟩ := ih _ _ _ _ h
          refine ⟨by omega, ?_⟩
          intro j
          rw [h2 j, hlater j r.iterations h1]
          simp only [hneed, Bool.false_eq_true, and_false, false_or, List.mem_append, hshown j,
            or_false]

/-- The loop runs until the first return on which it is left: with such a return at position
`k` it makes exactly `k + 1` calls of execWizardPage and comes to an end. -/
theorem wizardLoop_leaves (generateFiles : Nat → GeneratedFiles × QString) (n : Nat)
    (pages : List Nat) :
    ∀ (rest : List WizardStep) (k i : Nat) (files0 : GeneratedFiles)
      (trace0 : List WizardAction) (step : WizardStep),
      rest[k]? = some step → leavesLoop generateFiles pages (i + k) step = true →
      (∀ j s, j < k → rest[j]? = some s → leavesLoop generateFiles pages (i + j) s = false) →
      ∃ r, wizardLoop generateFiles n pages i rest files0 trace0 = some r
        ∧ r.iterations = i + k + 1 := by
  intro rest
  induction rest with
  | nil => intro k i files0 trace0 step h; simp at h
  | cons s0 rest ih =>
    intro k i files0 trace0 step hk hleave hfirst
    cases k with
    | zero =>
      simp only [List.getElem?_cons_zero, Option.some.injEq] at hk
      subst hk
      simp only [Nat.add_zero] at hleave
      unfold wizardLoop
      by_cases hrej : s0.wr = .Rejected
      · exact ⟨{ files := [], trace := trace0, iterations := i + 1 }, by simp [hrej], rfl⟩
      · by_cases hneed : needGenerateFiles pages s0 = true
        · by_cases hemp : (generateFiles i).1.isEmpty = true
          · simp only [hrej, if_false, hneed, if_true, hemp]
            exact ⟨_, rfl, rfl⟩
          · have hacc : s0.wr = .Accepted := by
              simp only [leavesLoop, hrej, decide_False, Bool.false_or, hneed, hemp,
                Bool.and_false, Bool.or_false, decide_eq_true_eq] at hleave
              exact hleave
            simp only [hrej, if_false, hneed, if_true, hemp, Bool.false_eq_true, hacc,
              decide_True]
            exact ⟨_, rfl, rfl⟩
        · have hacc : s0.wr = .Accepted := by
            simp only [leavesLoop, hrej, decide_False, Bool.false_or, hneed, Bool.false_and,
              Bool.or_false, decide_eq_true_eq] at hleave
            exact hleave
          simp only [hrej, if_false, hneed, Bool.false_eq_true, hacc, decide_True, if_true]
          exact ⟨_, rfl, rfl⟩
    | succ k =>
      simp only [List.getElem?_cons_succ] at hk
      have h0 := hfirst 0 s0 (Nat.succ_pos _) (by simp)
      simp only [Nat.add_zero, leavesLoop, Bool.or_eq_false_iff, decide_eq_false_iff_not,
        Bool.and_eq_false_imp] at h0
      obtain ⟨⟨hrej, hacc⟩, hgen⟩ := h0
      have hrec : ∀ (f : GeneratedFiles) (t : List WizardAction),
          ∃ r, wizardLoop generateFiles n pages (i + 1) rest f t = some r
            ∧ r.iterations = i + (k + 1) + 1 := by
        intro f t
        obtain ⟨r, hr, hit⟩ := ih k (i + 1) f t step hk
          (by rw [show i + 1 + k = i + (k + 1) by omega]; exact hleave)
          (by
            intro j s hj hs
            have := hfirst (j + 1) s (by omega) (by simpa using hs)
            rw [show i + 1 + j = i + (j + 1) by omega]; exact this)
        exact ⟨r, hr, by omega⟩
      unfold wizardLoop
      by_cases hneed : needGenerateFiles pages s0 = true
      · have hemp : (generateFiles i).1.isEmpty = false := hgen hneed
        simp only [hrej, if_false, hneed, if_true, hemp, Bool.false_eq_true, hacc, decide_False]
        exact hrec _ _
      · simp only [hrej, if_false, hneed, Bool.false_eq_true, hacc, decide_False]
        exact hrec _ _

theorem inLoop_shown (b : Bool) (n : Nat) :
    ∀ a ∈ (if b = true then (List.range n).map WizardAction.firstExtensionPageShown else []),
      a.inLoop = true := by
  intro a ha
  cases b
  · simp at ha
  · simp only [if_true, List.mem_map] at ha
    obtain ⟨k, -, rfl⟩ := ha
    rfl

theorem wizardLoop_rejected (generateFiles : Nat → GeneratedFiles × QString) (n : Nat)
    (pages : List Nat) (page : Option Nat) (rest : List WizardStep) :
    ∀ (pre : List WizardStep) (i : Nat) (files0 : GeneratedFiles) (trace0 : List WizardAction),
      (∀ s ∈ pre, s.wr = .PageChanged) → (∀ a ∈ trace0, a.inLoop = true) →
      ∃ r, wizardLoop generateFiles n pages i (pre ++ { wr := .Rejected, currentPage := page }
              :: rest) files0 trace0 = some r
        ∧ r.files = [] ∧ ∀ a ∈ r.trace, a.inLoop = true := by
  intro pre
  induction pre with
  | nil =>
    intro i files0 trace0 _ ht
    exact ⟨{ files := [], trace := trace0, iterations := i + 1 }, by simp [wizardLoop], rfl, ht⟩
  | cons step pre ih =>
    intro i files0 trace0 hpre ht
    have hwr : step.wr = .PageChanged := hpre step (List.mem_cons_self _ _)
    have hpre2 : ∀ s ∈ pre, s.wr = .PageChanged :=
      fun s hs => hpre s (List.mem_cons_of_mem _ hs)
    have hshown := inLoop_shown (firstExtensionPageHit pages step) n
    simp only [List.cons_append]
    unfold wizardLoop
    simp only [hwr, reduceCtorEq, if_false, decide_False, Bool.false_eq_true]
    by_cases hneed : needGenerateFiles pages step = true
    · simp only [hneed, if_true]
      by_cases hemp : (generateFiles i).1.isEmpty = true
      · simp only [hemp, if_true]
        refine ⟨_, rfl, List.isEmpty_iff.mp hemp, ?_⟩
        intro a ha
        simp only [List.mem_append, List.mem_cons, List.mem_singleton, List.not_mem_nil,
          or_false] at ha
        rcases ha with ha | ha | ha
        · exact ht a ha
        · rw [ha]; rfl
        · rw [ha]; rfl
      · simp only [hemp, Bool.false_eq_true, if_false]
        apply ih _ _ _ hpre2
        intro a ha
        simp only [List.mem_append, List.mem_cons, List.not_mem_nil, or_false] at ha
        rcases ha with (ha | ha) | ha
        · exact ht a ha
        · rw [ha]; rfl
        · exact hshown a ha
    · simp only [hneed, Bool.false_eq_true, if_false]
      apply ih _ _ _ hpre2
      intro a ha
      rcases List.mem_append.mp ha with ha | ha
      · exact ht a ha
      · exact hshown a ha

/-- The wizard loop, pinned to the returns of execWizardPage: if the return at position `k` is
the first on which the loop is left, the loop makes exactly `k + 1` calls and generateFiles is
called in iteration `j` exactly when `j` is at most `k` and that return was PageChanged with
the page pointer equal to `firstExtensionPage`, or Accepted with no extension pages. -/
theorem wizardLoop_generation (generateFiles : Nat → GeneratedFiles × QString) (n : Nat)
    (pages : List Nat) (events : List WizardStep) (k : Nat) (step : WizardStep)
    (hk : events[k]? = some step) (hleave : leavesLoop generateFiles pages k step = true)
    (hfirst : ∀ j s, j < k → events[j]? = some s → leavesLoop generateFiles pages j s = false) :
    ∃ loop, wizardLoop generateFiles n pages 0 events [] [] = some loop
      ∧ loop.iterations = k + 1
      ∧ ∀ j, WizardAction.generateFiles j ∈ loop.trace ↔
          j ≤ k ∧ ∃ s, events[j]? = some s
            ∧ ((s.wr = .PageChanged ∧ s.currentPage = firstExtensionPage pages)
               ∨ (s.wr = .Accepted ∧ pages = [])) := by
  obtain ⟨r, hr, hit⟩ := wizardLoop_leaves generateFiles n pages events k 0 [] [] step hk
    (by simpa using hleave) (by intro j s hj hs; simpa using hfirst j s hj hs)
  obtain ⟨-, h2⟩ := wizardLoop_generates _ _ _ _ _ _ _ _ hr
  refine ⟨r, hr, by omega, ?_⟩
  intro j
  rw [h2 j]
  simp only [List.not_mem_nil, false_or, Nat.zero_le, true_and, Nat.sub_zero,
    needGenerateFiles_iff, hit]
  constructor
  · rintro ⟨h1, h3⟩; exact ⟨by omega, h3⟩
  · rintro ⟨h1, h3⟩; exact ⟨by omega, h3⟩

/-- Whenever the event loop returns Rejected after any number of page changes, runWizard
returns with an empty file list, the file system untouched, and without prompting for
overwrite, writing a file or running the processFiles of an extension. -/
theorem runWizard_rejected {σ : Type} (env : WizardEnv σ) (path : QString) (fs : σ)
    (pre rest : List WizardStep) (page : Option Nat) (hpre : ∀ s ∈ pre, s.wr = .PageChanged) :
    ∃ o, runWizard env path (pre ++ { wr := .Rejected, currentPage := page } :: rest) fs
        = some o
      ∧ o.files = [] ∧ o.fs = fs
      ∧ WizardAction.promptOverwrite ∉ o.trace
      ∧ (∀ f ok, WizardAction.write f ok ∉ o.trace)
      ∧ (∀ k, WizardAction.processFiles k ∉ o.trace) := by
  have hharm : ∀ (tr : List WizardAction), (∀ a ∈ tr, a.inLoop = true) →
      WizardAction.promptOverwrite ∉ tr ∧ (∀ f ok, WizardAction.write f ok ∉ tr)
        ∧ (∀ k, WizardAction.processFiles k ∉ tr) := by
    intro tr h
    refine ⟨fun hm => ?_, fun f ok hm => ?_, fun k hm => ?_⟩
    · exact absurd (h _ hm) (by simp [WizardAction.inLoop])
    · exact absurd (h _ hm) (by simp [WizardAction.inLoop])
    · exact absurd (h _ hm) (by simp [WizardAction.inLoop])
  unfold runWizard
  by_cases hp : Sfdk.QString.isEmpty path = true
  · exact ⟨{ files := [], trace := [], fs := fs }, by simp only [hp, if_true], rfl, rfl,
      hharm [] (by simp)⟩
  · by_cases hw : env.wizardCreated = true
    · obtain ⟨r, hr, hfiles, htrace⟩ := wizardLoop_rejected env.generateFiles
        (purgedExtensions env.registeredExtensions).length
        (allExtensionPages env.registeredExtensions) page rest pre 0 [] [] hpre (by simp)
      refine ⟨{ files := r.files, trace := r.trace, fs := fs }, ?_, hfiles, rfl,
        hharm _ htrace⟩
      simp [hp, hw, hr, hfiles]
    · exact ⟨{ files := [], trace := [], fs := fs }, by simp [hp, hw], rfl, rfl,
        hharm [] (by simp)⟩

/-- C18, evaluated where no extension is registered and the wizard reports a page change
while no page is current: there is no first extension page and nothing was accepted, yet
generateFiles is called in that iteration, because the null page pointer equals the null
`firstExtensionPage`; the Rejected that follows clears the files.  Apart from this, for every
run the calls of generateFiles are pinned to the returns of execWizardPage, and every Rejected
ends runWizard without a prompt, a write or a processFiles. -/
theorem runWizard_generates_on_null_page_change :
    allExtensionPages sampleWizardEnv.registeredExtensions = []
    ∧ firstExtensionPage (allExtensionPages sampleWizardEnv.registeredExtensions) = none
    ∧ wizardLoop sampleWizardEnv.generateFiles
        (purgedExtensions sampleWizardEnv.registeredExtensions).length
        (allExtensionPages sampleWizardEnv.registeredExtensions) 0
        [{ wr := .PageChanged, currentPage := none }, { wr := .Rejected, currentPage := none }]
        [] []
      = some { files := [], trace := [.generateFiles 0], iterations := 2 }
    ∧ (runWizard sampleWizardEnv "/p"
        [{ wr := .PageChanged, currentPage := none }, { wr := .Rejected, currentPage := none }]
        0).map (fun o => (o.files, o.trace, o.fs))
      = some ([], [.generateFiles 0], 0)
    ∧ (runWizard sampleWizardEnv "/p"
        [{ wr := .PageChanged, currentPage := some 3 },
         { wr := .Rejected, currentPage := some 3 }] 0).map (fun o => (o.files, o.trace, o.fs))
      = some ([], [], 0)
    ∧ (∀ (generateFiles : Nat → GeneratedFiles × QString) (n : Nat) (pages : List Nat)
        (events : List WizardStep) (k : Nat) (step : WizardStep),
        events[k]? = some step → leavesLoop generateFiles pages k step = true →
        (∀ j s, j < k → events[j]? = some s → leavesLoop generateFiles pages j s = false) →
        ∃ loop, wizardLoop generateFiles n pages 0 events [] [] = some loop
          ∧ loop.iterations = k + 1
          ∧ ∀ j, WizardAction.generateFiles j ∈ loop.trace ↔
              j ≤ k ∧ ∃ s, events[j]? = some s
                ∧ ((s.wr = .PageChanged ∧ s.currentPage = firstExtensionPage pages)
                   ∨ (s.wr = .Accepted ∧ pages = [])))
    ∧ (∀ (σ : Type) (env : WizardEnv σ) (path : QString) (fs : σ) (pre rest : List WizardStep)
        (page : Option Nat), (∀ s ∈ pre, s.wr = .PageChanged) →
        ∃ o, runWizard env path (pre ++ { wr := .Rejected, currentPage := page } :: rest) fs
            = some o
          ∧ o.files = [] ∧ o.fs = fs
          ∧ WizardAction.promptOverwrite ∉ o.trace
          ∧ (∀ f ok, WizardAction.write f ok ∉ o.trace)
          ∧ (∀ k, WizardAction.processFiles k ∉ o.trace)) := by
  refine ⟨by decide, by decide, by decide, by decide, by decide, ?_, ?_⟩
  · intro generateFiles n pages events k step hk hleave hfirst
    exact wizardLoop_generation generateFiles n pages events k step hk hleave hfirst
  · intro σ env path fs pre rest page hpre
    exact runWizard_rejected env path fs pre rest page hpre

end Core

/-! ### qpatch -/

namespace QPatch

/-- C15, evaluated at an input with directories of equal encoded length: "/opt/qt" and
"/usr/qt" both have 7 bytes, which is not less than 7, yet qpatch does not exit with
EXIT_FAILURE; it exits with 0 and rewrites the listed file.  Only a strictly longer new
directory is refused. -/
theorem qpatch_accepts_equal_length :
    (sampleEnv.encodeName "/usr/qt").length = 7
    ∧ (sampleEnv.encodeName "/opt/qt").length = 7
    ∧ (main sampleEnv sampleFs ["files.list", "/opt/qt", "/usr/qt"]).map
        (fun o => (o.exitCode, o.written))
      = some (0, [("/usr/qt/lib/libQt.so", ("ab/usr/qt/x".data.map Char.toNat) ++ [0, 7, 7])])
    ∧ (∀ (env : Env) (fs : FileSystem) (files oldQtDir newQtDir : Sfdk.QString),
        (env.encodeName oldQtDir).length < (env.encodeName newQtDir).length →
          (main env fs [files, oldQtDir, newQtDir]).map (fun o => (o.exitCode, o.written))
            = some (EXIT_FAILURE, [])) := by
  refine ⟨by decide, by decide, by decide, ?_⟩
  intro env fs files oldQtDir newQtDir h
  simp [main, h]

end QPatch

/-! ### The QML/JS model manager -/

namespace QmlJSTools

open Sfdk (QString)

theorem appendNew_extends : ∀ (imported files : List QString),
    ∃ extra, appendNew files imported = files ++ extra := by
  intro imported
  induction imported with
  | nil => intro files; exact ⟨[], by simp [appendNew]⟩
  | cons f rest ih =>
    intro files
    unfold appendNew
    by_cases h : files.contains f = true
    · simp only [h, if_true]; exact ih files
    · simp only [h, Bool.false_eq_true, if_false]
      obtain ⟨extra, he⟩ := ih (files ++ [f])
      exact ⟨[f] ++ extra, by rw [he, List.append_assoc]⟩

theorem parseLoop_documents (env : ParseEnv) :
    ∀ (fuel : Nat) (s : ParseState),
      s.documents = (s.files.take s.index).filter (fun f => (classify env f).isSome) →
      (parseLoop env fuel s).documents
          = ((parseLoop env fuel s).files.take (parseLoop env fuel s).index).filter
              (fun f => (classify env f).isSome)
        ∧ List.IsPrefix s.files (parseLoop env fuel s).files := by
  intro fuel
  induction fuel with
  | zero => intro s h; exact ⟨h, List.prefix_refl _⟩
  | succ fuel ih =>
    intro s h
    cases hget : s.files[s.index]? with
    | none =>
      have e : parseLoop env (fuel + 1) s = s := by simp [parseLoop, hget]
      rw [e]
      exact ⟨h, List.prefix_refl _⟩
    | some fileName =>
      have hlt : s.index < s.files.length := by
        by_contra hge
        rw [List.getElem?_eq_none (by omega)] at hget
        simp at hget
      have htake : s.files.take (s.index + 1) = s.files.take s.index ++ [fileName] := by
        rw [List.take_succ, hget]; rfl
      cases hc : classify env fileName with
      | none =>
        have e : parseLoop env (fuel + 1) s
            = parseLoop env fuel { s with index := s.index + 1 } := by
          simp [parseLoop, hget, hc]
        rw [e]
        apply ih
        simp only [htake, List.filter_append, List.filter_cons, hc, Option.isSome_none,
          Bool.false_eq_true, if_false, List.filter_nil, List.append_nil]
        exact h
      | some isQmlFile =>
        have e : parseLoop env (fuel + 1) s
            = parseLoop env fuel
                { index := s.index + 1
                  files := appendNew s.files (env.importedFiles s.index fileName)
                  documents := s.documents ++ [fileName] } := by
          simp [parseLoop, hget, hc]
        rw [e]
        obtain ⟨extra, he⟩ := appendNew_extends (env.importedFiles s.index fileName) s.files
        have := ih { index := s.index + 1
                     files := appendNew s.files (env.importedFiles s.index fileName)
                     documents := s.documents ++ [fileName] } (by
          simp only [he]
          rw [List.take_append_of_le_length (by omega), htake]
          simp only [List.filter_append, List.filter_cons, hc, Option.isSome_some, if_true,
            List.filter_nil]
          rw [h])
        refine ⟨this.1, ?_⟩
        have hp : List.IsPrefix s.files
            (appendNew s.files (env.importedFiles s.index fileName)) := by
          rw [he]; exact List.prefix_append _ _
        exact hp.trans this.2

/-- C19: without a mime database a file is taken as JS when its name contains ".js" and
otherwise as QML when it contains ".qml", case ignored, and is skipped otherwise; with a
database the same three-way decision is made by suffixMatches against the JS type first and
the QML type second; and in every run of the loop the documents created are exactly the
files reached so far that were not skipped, in order, the file list only growing at its end. -/
theorem parse_skips_other_files (fold : Char → Char)
    (importedFiles : Nat → QString → List QString) (jsSourceTy qmlSourceTy : MimeType)
    (env : ParseEnv) (fuel : Nat) (files : List QString) (fileName : QString) :
    classify { fold := fold, db := none, importedFiles := importedFiles } fileName
        = (if containsCI fold fileName ".js" = true then some false
           else if containsCI fold fileName ".qml" = true then some true
           else none)
    ∧ classify { fold := fold, db := some (jsSourceTy, qmlSourceTy),
                 importedFiles := importedFiles } fileName
        = (if suffixMatches fold fileName jsSourceTy = true then some false
           else if suffixMatches fold fileName qmlSourceTy = true then some true
           else none)
    ∧ (parse env fuel files).documents
        = ((parse env fuel files).files.take (parse env fuel files).index).filter
            (fun f => (classify env f).isSome)
    ∧ List.IsPrefix files (parse env fuel files).files := by
  refine ⟨?_, ?_, ?_, ?_⟩
  · simp only [classify]
    by_cases h1 : containsCI fold fileName ".js" = true <;>
      by_cases h2 : containsCI fold fileName ".qml" = true <;> simp [h1, h2]
  · simp only [classify]
    by_cases h1 : suffixMatches fold fileName jsSourceTy = true <;>
      by_cases h2 : suffixMatches fold fileName qmlSourceTy = true <;> simp [h1, h2]
  · exact (parseLoop_documents env fuel { index := 0, files := files, documents := [] }
      (by simp)).1
  · exact (parseLoop_documents env fuel { index := 0, files := files, documents := [] }
      (by simp)).2

theorem firstMatch_spec (call : QString → Option Bool) :
    ∀ (l : List QString), (∀ p ∈ l, ∃ b, call p = some b) →
      ∃ b, firstMatch call l = some b ∧ (b = true ↔ ∃ p ∈ l, call p = some true) := by
  intro l
  induction l with
  | nil => intro _; exact ⟨false, rfl, by simp⟩
  | cons p rest ih =>
    intro h
    obtain ⟨b, hb⟩ := h p (List.mem_cons_self _ _)
    obtain ⟨b2, h2, h3⟩ := ih (fun q hq => h q (List.mem_cons_of_mem _ hq))
    cases b with
    | true =>
      exact ⟨true, by simp [firstMatch, hb], by simp [hb]⟩
    | false =>
      refine ⟨b2, by simp [firstMatch, hb, h2], ?_⟩
      rw [h3]
      simp [hb]

/-- C20: over a mime database whose subClassesOf relation is acyclic (every parent type has
a smaller rank than its child), matchesMimeType comes to an end for every recursion bound
above the rank of the file type, and returns true exactly when the type or an alias of the
known type matches the file type itself or a type reached from it through subClassesOf
steps. -/
theorem matchesMimeType_iff_reaches (env : MimeEnv) (rank : MimeType → Nat)
    (hacyclic : ∀ (t : MimeType) (p : QString), p ∈ t.subClassesOf →
      rank (env.findByType p) < rank t)
    (knownMimeType : MimeType) :
    ∀ (fuel : Nat) (fileMimeType : MimeType), rank fileMimeType < fuel →
      ∃ b, matchesMimeType env fuel fileMimeType knownMimeType = some b
        ∧ (b = true ↔ ∃ t, Reaches env fileMimeType t ∧ knownNameMatches env knownMimeType t) := by
  intro fuel
  induction fuel with
  | zero => intro f h; omega
  | succ fuel ih =>
    intro f hf
    unfold matchesMimeType
    by_cases hself : (knownMimeType.type :: knownMimeType.aliases).any
        (fun knownTypeName => env.matchesType f knownTypeName) = true
    · refine ⟨true, by simp only [hself, if_true], ?_⟩
      simp only [true_iff]
      refine ⟨f, Reaches.refl f, ?_⟩
      obtain ⟨name, hn, hm⟩ := List.any_eq_true.mp hself
      exact ⟨name, hn, hm⟩
    · simp only [hself, Bool.false_eq_true, if_false]
      have hcalls : ∀ p ∈ f.subClassesOf,
          ∃ b, matchesMimeType env fuel (env.findByType p) knownMimeType = some b := by
        intro p hp
        obtain ⟨b, hb, -⟩ := ih (env.findByType p) (by have := hacyclic f p hp; omega)
        exact ⟨b, hb⟩
      obtain ⟨b, hb, hiff⟩ := firstMatch_spec
        (fun p => matchesMimeType env fuel (env.findByType p) knownMimeType) f.subClassesOf hcalls
      refine ⟨b, hb, ?_⟩
      rw [hiff]
      constructor
      · rintro ⟨p, hp, hcall⟩
        obtain ⟨b2, hb2, hiff2⟩ := ih (env.findByType p) (by have := hacyclic f p hp; omega)
        have hb2t : b2 = true := by
          have : some b2 = some true := by rw [← hb2]; exact hcall
          exact Option.some.inj this
        obtain ⟨t, hr, hm⟩ := hiff2.mp hb2t
        exact ⟨t, Reaches.step p hp hr, hm⟩
      · rintro ⟨t, hr, hm⟩
        cases hr with
        | refl =>
          exfalso
          apply hself
          obtain ⟨name, hn, hmatch⟩ := hm
          exact List.any_eq_true.mpr ⟨name, hn, hmatch⟩
        | step p hp hr2 =>
          obtain ⟨b2, hb2, hiff2⟩ := ih (env.findByType p) (by have := hacyclic f p hp; omega)
          have : b2 = true := hiff2.mpr ⟨t, hr2, hm⟩
          exact ⟨p, hp, by rw [hb2, this]⟩

theorem sampleRank_decreases (t : MimeType) (p : QString) (hp : p ∈ t.subClassesOf) :
    sampleRank (sampleMimeEnv.findByType p) < sampleRank t := by
  have hle : ∀ (l : List QString), p ∈ l →
      (if p = "application/x-qml" then 2 else 1)
        ≤ (l.map (fun q => if q = "application/x-qml" then 2 else 1)).sum := by
    intro l
    induction l with
    | nil => intro h; simp at h
    | cons q rest ih =>
      intro h
      rcases List.mem_cons.mp h with h | h
      · subst h; simp
      · have := ih h
        simp only [List.map_cons, List.sum_cons]
        omega
  have h1 := hle _ hp
  unfold sampleRank
  by_cases hq : p = "application/x-qml"
  · subst hq
    simp only [if_true] at h1
    have : sampleRank (sampleMimeEnv.findByType "application/x-qml") = 1 := by decide
    unfold sampleRank at this
    omega
  · simp only [hq, if_false] at h1
    have : sampleRank (sampleMimeEnv.findByType p) = 0 := by
      by_cases hpl : p = "text/plain"
      · subst hpl; decide
      · simp [sampleRank, sampleMimeEnv, hpl, hq]
    unfold sampleRank at this
    omega

/-- Witness for C20: the QML type against the known type "text/plain", its parent. -/
theorem matchesMimeType_iff_reaches_witness :
    ∃ b, matchesMimeType sampleMimeEnv 2 (sampleMimeEnv.findByType "application/x-qml")
          (sampleMimeEnv.findByType "text/plain") = some b
      ∧ (b = true ↔ ∃ t, Reaches sampleMimeEnv (sampleMimeEnv.findByType "application/x-qml") t
            ∧ knownNameMatches sampleMimeEnv (sampleMimeEnv.findByType "text/plain") t) :=
  matchesMimeType_iff_reaches sampleMimeEnv sampleRank sampleRank_decreases
    (sampleMimeEnv.findByType "text/plain") 2 (sampleMimeEnv.findByType "application/x-qml")
    (by decide)

end QmlJSTools

/-! ### The binary patch loop of qpatch -/

namespace QPatch

theorem hasNulFrom_iff (source : QByteArray) (start : Nat) :
    hasNulFrom source start = true ↔ ∃ k, start ≤ k ∧ k < source.length ∧ source[k]? = some 0 := by
  unfold hasNulFrom
  have hmem : (source.drop start).contains 0 = true ↔ 0 ∈ source.drop start := by simp
  rw [hmem, List.mem_iff_getElem?]
  constructor
  · rintro ⟨i, hi⟩
    rw [List.getElem?_drop] at hi
    refine ⟨start + i, Nat.le_add_right _ _, ?_, hi⟩
    by_contra hge
    rw [List.getElem?_eq_none (by omega)] at hi
    simp at hi
  · rintro ⟨k, h1, _, h3⟩
    refine ⟨k - start, ?_⟩
    rw [List.getElem?_drop]
    have : start + (k - start) = k := by omega
    rw [this]; exact h3

theorem findNul_spec (source : QByteArray) :
    ∀ (fuel position : Nat), source.length ≤ position + fuel →
      (∃ k, position ≤ k ∧ k < source.length ∧ source[k]? = some 0) →
      position ≤ findNul source fuel position
      ∧ findNul source fuel position < source.length
      ∧ source[findNul source fuel position]? = some 0
      ∧ ∀ k, position ≤ k → k < findNul source fuel position → source[k]? ≠ some 0 := by
  intro fuel
  induction fuel with
  | zero =>
    rintro position hfuel ⟨k, h1, h2, -⟩
    omega
  | succ fuel ih =>
    rintro position hfuel ⟨k, h1, h2, h3⟩
    have hlt : position < source.length := by omega
    unfold findNul
    simp only [hlt, if_true]
    have hget : source.getD position 0 = source[position] := by
      simp [List.getD_eq_getElem?_getD, List.getElem?_eq_getElem hlt]
    by_cases h0 : source[position] = 0
    · simp only [hget, h0, if_true]
      refine ⟨le_refl _, hlt, ?_, ?_⟩
      · rw [List.getElem?_eq_getElem hlt, h0]
      · intro j hj1 hj2; omega
    · simp only [hget, h0, if_false]
      have hk : position ≠ k := by
        rintro rfl
        rw [List.getElem?_eq_getElem hlt] at h3
        exact h0 (Option.some.inj h3)
      obtain ⟨a, b, c, d⟩ := ih (position + 1) (by omega) ⟨k, by omega, h2, h3⟩
      refine ⟨by omega, b, c, ?_⟩
      intro j hj1 hj2
      by_cases hj : j = position
      · subst hj
        rw [List.getElem?_eq_getElem hlt]
        intro h; exact h0 (Option.some.inj h)
      · exact d j (by omega) hj2

theorem scanFrom_spec (hay needle : QByteArray) :
    ∀ (fuel s start : Nat), scanFrom hay needle fuel s = some start →
      s ≤ start ∧ needle.isPrefixOf (hay.drop start) = true := by
  intro fuel
  induction fuel with
  | zero => intro s start h; simp [scanFrom] at h
  | succ fuel ih =>
    intro s start h
    unfold scanFrom at h
    by_cases hp : needle.isPrefixOf (hay.drop s) = true
    · simp only [hp, if_true, Option.some.injEq] at h
      subst h
      exact ⟨le_refl _, hp⟩
    · simp only [hp, Bool.false_eq_true, if_false] at h
      obtain ⟨a, b⟩ := ih _ _ h
      exact ⟨by omega, b⟩

theorem indexOf_spec (hay needle : QByteArray) (hne : needle ≠ []) (index start : Nat)
    (h : indexOf hay needle index = some start) :
    index ≤ start ∧ start + needle.length ≤ hay.length
    ∧ ∀ i, i < needle.length → hay[start + i]? = needle[i]? := by
  unfold indexOf at h
  have he : needle.isEmpty = false := by
    cases needle with
    | nil => exact absurd rfl hne
    | cons a l => rfl
  simp only [he, Bool.false_eq_true, if_false] at h
  by_cases hlen : hay.length < index + needle.length
  · simp [hlen] at h
  · simp only [hlen, if_false] at h
    obtain ⟨a, b⟩ := scanFrom_spec _ _ _ _ _ h
    rw [List.isPrefixOf_iff_prefix] at b
    obtain ⟨t, ht⟩ := b
    have hl : (hay.drop start).length = needle.length + t.length := by
      rw [← ht, List.length_append]
    rw [List.length_drop] at hl
    have hpos : 0 < needle.length := List.length_pos.mpr hne
    refine ⟨a, by omega, ?_⟩
    intro i hi
    have : (hay.drop start)[i]? = (needle ++ t)[i]? := by rw [ht]
    rw [List.getElem?_drop, List.getElem?_append_left hi] at this
    exact this

theorem length_bytesBetween (source : QByteArray) (first last : Nat) :
    (bytesBetween source first last).length = last - first := by
  simp [bytesBetween]

/-- One round of the patch loop keeps the number of bytes written equal to the index reached,
so with a NUL after every occurrence located the loop ends with as many bytes written as the
source has. -/
theorem patchLoop_length (source qtDirPath newQtPath : QByteArray) (hne : qtDirPath ≠ [])
    (hfree : 0 ∉ qtDirPath) (hlen : newQtPath.length ≤ qtDirPath.length) :
    ∀ (fuel index : Nat) (written : QByteArray),
      written.length = index → index ≤ source.length → source.length + 1 ≤ index + fuel →
      (∀ start ∈ locatedStarts source qtDirPath fuel index, hasNulFrom source start = true) →
      ∃ out, patchLoop source qtDirPath newQtPath fuel index written = some out
        ∧ out.length = source.length := by
  intro fuel
  induction fuel with
  | zero => intro index written _ h2 h3 _; omega
  | succ fuel ih =>
    intro index written hw hidx hfuel hnul
    cases hi : indexOf source qtDirPath index with
    | none =>
      have e : patchLoop source qtDirPath newQtPath (fuel + 1) index written
          = some (if index ≠ source.length then written ++ source.drop index else written) := by
        simp [patchLoop, hi]
      refine ⟨_, e, ?_⟩
      by_cases hx : index = source.length
      · rw [if_neg (not_not.mpr hx)]
        omega
      · simp only [ne_eq, hx, not_false_eq_true, if_true, List.length_append, List.length_drop]
        omega
    | some start =>
      obtain ⟨h1, h2, h3⟩ := indexOf_spec source qtDirPath hne index start hi
      have hloc : locatedStarts source qtDirPath (fuel + 1) index
          = start :: locatedStarts source qtDirPath fuel
              (findNul source (source.length - start) start + 1) := by
        simp [locatedStarts, hi]
      rw [hloc] at hnul
      have hn := (hasNulFrom_iff source start).mp (hnul start (List.mem_cons_self _ _))
      obtain ⟨z1, z2, z3, z4⟩ := findNul_spec source (source.length - start) start (by omega) hn
      generalize hz : findNul source (source.length - start) start = z at *
      have hzold : start + qtDirPath.length ≤ z := by
        by_contra hlt
        have hi2 : z - start < qtDirPath.length := by omega
        have hb := h3 (z - start) hi2
        have hzz : start + (z - start) = z := by omega
        rw [hzz, z3, List.getElem?_eq_getElem hi2] at hb
        have hb2 : qtDirPath[z - start] = 0 := (Option.some.inj hb).symm
        exact hfree (hb2 ▸ List.getElem_mem _)
      have hcheck : ¬ (z + 1 < start + qtDirPath.length) := by omega
      have e : patchLoop source qtDirPath newQtPath (fuel + 1) index written
          = patchLoop source qtDirPath newQtPath fuel (z + 1)
              ((if index ≠ start then written ++ (source.drop index).take (start - index)
                else written)
                ++ ((newQtPath ++ bytesBetween source (start + qtDirPath.length) (z + 1))
                    ++ List.replicate (z + 1 - start
                        - (newQtPath ++ bytesBetween source (start + qtDirPath.length)
                            (z + 1)).length) 0)) := by
        simp [patchLoop, hi, hz, hcheck]
      rw [e]
      apply ih
      · have hfirst : (if index ≠ start then written ++ (source.drop index).take (start - index)
            else written).length = start := by
          by_cases hx : index = start
          · rw [if_neg (not_not.mpr hx)]
            omega
          · simp only [ne_eq, hx, not_false_eq_true, if_true, List.length_append,
              List.length_take, List.length_drop]
            omega
        simp only [List.length_append, hfirst, List.length_replicate, length_bytesBetween]
        omega
      · omega
      · omega
      · intro s hs
        exact hnul s (List.mem_cons_of_mem _ hs)

/-- Without a NUL byte after an occurrence the hypothesis of the size result fails and so does
its conclusion: the loop copies the NUL that terminates the byte array, and the output is one
byte longer than the source. -/
theorem patchBinary_without_nul_grows :
    hasNulFrom ("ab/opt/qt/x".data.map Char.toNat) 2 = false
    ∧ ("ab/opt/qt/x".data.map Char.toNat).length = 11
    ∧ (patchBinary ("ab/opt/qt/x".data.map Char.toNat) ("/opt/qt".data.map Char.toNat)
        ("/u".data.map Char.toNat)).map List.length = some 12 := by
  refine ⟨by decide, by decide, by decide⟩

/-- C21: for every source, every NUL-free, non-empty old Qt directory and every new Qt
directory that is not longer (NUL-free or not), if every occurrence of the old directory that
the scan locates has a NUL byte at or after it inside the source, the binary patch loop comes
to an end and writes exactly as many bytes as the source has. -/
theorem patchBinary_preserves_size (source qtDirPath newQtPath : QByteArray)
    (hne : qtDirPath ≠ []) (hfree : 0 ∉ qtDirPath)
    (hlen : newQtPath.length ≤ qtDirPath.length)
    (hnul : ∀ start ∈ locatedStarts source qtDirPath (source.length + 2) 0,
      hasNulFrom source start = true) :
    ∃ out, patchBinary source qtDirPath newQtPath = some out ∧ out.length = source.length :=
  patchLoop_length source qtDirPath newQtPath hne hfree hlen
    (source.length + 2) 0 [] rfl (Nat.zero_le _) (by omega) hnul

/-- Witness for C21: a library image with two embedded strings that start with "/opt/qt",
patched to "/usr". -/
theorem patchBinary_preserves_size_witness :
    ∃ out,
      patchBinary (("ab/opt/qt/x".data.map Char.toNat) ++ [0, 7, 7]
          ++ ("/opt/qt".data.map Char.toNat) ++ [0])
        ("/opt/qt".data.map Char.toNat) ("/usr".data.map Char.toNat) = some out
      ∧ out.length = ((("ab/opt/qt/x".data.map Char.toNat) ++ [0, 7, 7]
          ++ ("/opt/qt".data.map Char.toNat) ++ [0]) : QByteArray).length :=
  patchBinary_preserves_size
    (("ab/opt/qt/x".data.map Char.toNat) ++ [0, 7, 7] ++ ("/opt/qt".data.map Char.toNat) ++ [0])
    ("/opt/qt".data.map Char.toNat) ("/usr".data.map Char.toNat)
    (by decide) (by decide) (by decide) (by decide)

end QPatch
